import Mathlib

set_option autoImplicit false

universe u v

/-- Poll mirrors the Rust type core::task::Poll: a value is ready, or the
computation is still pending. Stream items arrive as Poll (Option item),
where ready none is end-of-stream. -/
inductive Poll (β : Type u) where
  | ready : β → Poll β
  | pending : Poll β
  deriving Repr, DecidableEq

/-- SeriesWrapper mirrors the struct of the same name in stream.rs: an inner
future (or, after completion, its output) together with the i64 slot index.
Indices are modelled as unbounded integers: i64 overflow would require two to
the sixty-third enrolments, which the design rules out. -/
structure SeriesWrapper (α : Type u) where
  data : α
  index : Int
  deriving Repr, DecidableEq

/-- PollChoice models the scheduler nondeterminism of one poll of the inner
FuturesUnordered set: either no contained future is ready (pending), or the
future currently stored at position i of the set completes now. -/
inductive PollChoice where
  | pending
  | complete (i : Nat)
  deriving Repr, DecidableEq

/-- Modelled from the futures-util crate (the external active-set collaborator
named in the spec): FuturesUnordered is a bag of futures, polled in completion
order, together with its FusedStream flag. The flag starts false, is set when
poll_next returns ready none (the set was empty), and is cleared by push. -/
structure FuturesUnordered (α : Type u) where
  futures : List (SeriesWrapper α)
  terminated : Bool
  deriving Repr, DecidableEq

def FuturesUnordered.new {α : Type u} : FuturesUnordered α :=
  { futures := [], terminated := false }

def FuturesUnordered.push {α : Type u} (q : FuturesUnordered α) (w : SeriesWrapper α) :
    FuturesUnordered α :=
  { futures := w :: q.futures, terminated := false }

def FuturesUnordered.len {α : Type u} (q : FuturesUnordered α) : Nat :=
  q.futures.length

def FuturesUnordered.is_empty {α : Type u} (q : FuturesUnordered α) : Bool :=
  q.futures.isEmpty

def FuturesUnordered.is_terminated {α : Type u} (q : FuturesUnordered α) : Bool :=
  q.terminated

/-- Modelled from the futures-util crate: polling an empty FuturesUnordered
yields ready none and sets the terminated flag; polling a non-empty one either
reports pending or completes one contained future, chosen by the scheduler
(the PollChoice). A choice pointing at no element behaves as pending. -/
def FuturesUnordered.poll_next {α : Type u} (c : PollChoice) (q : FuturesUnordered α) :
    Poll (Option (SeriesWrapper α)) × FuturesUnordered α :=
  if q.futures.isEmpty then
    (Poll.ready none, { q with terminated := true })
  else
    match c with
    | PollChoice.pending => (Poll.pending, q)
    | PollChoice.complete i =>
      match q.futures[i]? with
      | some w => (Poll.ready (some w), { q with futures := q.futures.eraseIdx i })
      | none => (Poll.pending, q)

/-- lookupA models HashMap::get on the series table, with the map represented
as an association list with distinct keys. -/
def lookupA {α : Type u} (k : Int) : List (Int × List α) → Option (List α)
  | [] => none
  | kv :: rest => if kv.1 = k then some kv.2 else lookupA k rest

/-- removeA models HashMap::remove (the removed value is not used by the
source, so only the resulting map is returned). -/
def removeA {α : Type u} (k : Int) (m : List (Int × List α)) : List (Int × List α) :=
  m.filter (fun kv => kv.1 != k)

/-- setA models the in-place mutation of the Vec obtained from HashMap::get_mut:
the value stored under key k is replaced, other entries are untouched. -/
def setA {α : Type u} (k : Int) (v : List α) (m : List (Int × List α)) : List (Int × List α) :=
  m.map (fun kv => if kv.1 = k then (k, v) else kv)

/-- insertA models HashMap::insert: any existing entry for the key is replaced. -/
def insertA {α : Type u} (k : Int) (v : List α) (m : List (Int × List α)) : List (Int × List α) :=
  (k, v) :: removeA k m

/-- popLast models Vec::pop: detach and return the last element. -/
def popLast {α : Type u} : List α → Option (α × List α)
  | [] => none
  | [a] => some (a, [])
  | a :: b :: rest =>
    match popLast (b :: rest) with
    | some (x, r) => some (x, a :: r)
    | none => none

/-- FuturesUnorderedSeries mirrors the struct of the same name in stream.rs:
the active set of tagged futures, the series table mapping a slot index to the
reversed tail of its series, and the monotone counter for the next index. -/
structure FuturesUnorderedSeries (α : Type u) where
  in_progress_queue : FuturesUnordered α
  series_queue : List (Int × List α)
  next_index : Int
  deriving Repr, DecidableEq

/-- new mirrors FuturesUnorderedSeries::new: empty active set, empty series
table, counter at zero. -/
def FuturesUnorderedSeries.new {α : Type u} : FuturesUnorderedSeries α :=
  { in_progress_queue := FuturesUnordered.new, series_queue := [], next_index := 0 }

/-- len mirrors FuturesUnorderedSeries::len: active-set size plus the fold of
tail lengths over the series table. -/
def FuturesUnorderedSeries.len {α : Type u} (s : FuturesUnorderedSeries α) : Nat :=
  s.in_progress_queue.len + s.series_queue.foldl (fun acc kv => acc + kv.2.length) 0

/-- is_empty mirrors FuturesUnorderedSeries::is_empty. -/
def FuturesUnorderedSeries.is_empty {α : Type u} (s : FuturesUnorderedSeries α) : Bool :=
  s.in_progress_queue.is_empty && s.series_queue.isEmpty

/-- push mirrors FuturesUnorderedSeries::push: wrap the future with the current
counter value, advance the counter, insert into the active set. -/
def FuturesUnorderedSeries.push {α : Type u} (s : FuturesUnorderedSeries α) (future : α) :
    FuturesUnorderedSeries α :=
  let wrapped : SeriesWrapper α := { data := future, index := s.next_index }
  { in_progress_queue := s.in_progress_queue.push wrapped,
    series_queue := s.series_queue,
    next_index := s.next_index + 1 }

/-- push_series mirrors FuturesUnorderedSeries::push_series: reverse the input
vector, pop the original head, and if the remaining reversed tail is non-empty
store it in the series table under the freshly assigned index; an empty input
is a no-op and does not advance the counter. -/
def FuturesUnorderedSeries.push_series {α : Type u} (s : FuturesUnorderedSeries α)
    (futures : List α) : FuturesUnorderedSeries α :=
  let rev := futures.reverse
  match popLast rev with
  | none => s
  | some (first, remaining) =>
    let wrapped : SeriesWrapper α := { data := first, index := s.next_index }
    { in_progress_queue := s.in_progress_queue.push wrapped,
      series_queue := if remaining.isEmpty then s.series_queue
                      else insertA s.next_index remaining s.series_queue,
      next_index := s.next_index + 1 }

/-- poll_next_tagged transcribes the body of the Stream::poll_next impl in
stream.rs, except that the yielded value keeps its SeriesWrapper tag (the
source returns output.data; poll_next below applies that projection). The
source loop returns in every match arm, so one call is one inner poll. When a
tagged future completes, its index is looked up in the series table; if a tail
is stored there, its popped element is re-tagged with the same index and pushed
into the active set, and the entry is removed once the stored vector is empty. -/
def FuturesUnorderedSeries.poll_next_tagged {α : Type u} (c : PollChoice)
    (s : FuturesUnorderedSeries α) :
    Poll (Option (SeriesWrapper α)) × FuturesUnorderedSeries α :=
  match s.in_progress_queue.poll_next c with
  | (Poll.pending, q) => (Poll.pending, { s with in_progress_queue := q })
  | (Poll.ready none, q) => (Poll.ready none, { s with in_progress_queue := q })
  | (Poll.ready (some output), q) =>
    match lookupA output.index s.series_queue with
    | none => (Poll.ready (some output), { s with in_progress_queue := q })
    | some tail =>
      match popLast tail with
      | some (next, remaining) =>
        let wrapped : SeriesWrapper α := { data := next, index := output.index }
        let q2 := q.push wrapped
        let sq1 := setA output.index remaining s.series_queue
        let sq2 := if remaining.isEmpty then removeA output.index sq1 else sq1
        (Poll.ready (some output),
         { in_progress_queue := q2, series_queue := sq2, next_index := s.next_index })
      | none =>
        (Poll.ready (some output),
         { in_progress_queue := q,
           series_queue := removeA output.index s.series_queue,
           next_index := s.next_index })

/-- poll_next mirrors Stream::poll_next for FuturesUnorderedSeries: the tagged
step with the slot index stripped from the yielded value. -/
def FuturesUnorderedSeries.poll_next {α : Type u} (c : PollChoice)
    (s : FuturesUnorderedSeries α) : Poll (Option α) × FuturesUnorderedSeries α :=
  match s.poll_next_tagged c with
  | (Poll.ready (some output), s2) => (Poll.ready (some output.data), s2)
  | (Poll.ready none, s2) => (Poll.ready none, s2)
  | (Poll.pending, s2) => (Poll.pending, s2)

/-- is_terminated mirrors the FusedStream impl for FuturesUnorderedSeries. -/
def FuturesUnorderedSeries.is_terminated {α : Type u} (s : FuturesUnorderedSeries α) : Bool :=
  s.in_progress_queue.is_terminated && s.series_queue.isEmpty

/-- extend mirrors the Extend impl: successive single pushes in order. -/
def FuturesUnorderedSeries.extend {α : Type u} (s : FuturesUnorderedSeries α)
    (futures : List α) : FuturesUnorderedSeries α :=
  futures.foldl (fun acc f => acc.push f) s

/-- from_iter mirrors the FromIterator impl: fold push over a new queue. -/
def FuturesUnorderedSeries.from_iter {α : Type u} (futures : List α) :
    FuturesUnorderedSeries α :=
  futures.foldl (fun acc f => acc.push f) FuturesUnorderedSeries.new

/-- Op is one consumer-visible operation on the queue; a poll carries the
scheduler choice resolving which active future, if any, completes. -/
inductive Op (α : Type u) where
  | push : α → Op α
  | push_series : List α → Op α
  | poll : PollChoice → Op α
  deriving Repr, DecidableEq

/-- stepOp applies one operation and records the tagged value yielded by a
ready poll, if any. -/
def stepOp {α : Type u} (op : Op α) (s : FuturesUnorderedSeries α) :
    FuturesUnorderedSeries α × List (SeriesWrapper α) :=
  match op with
  | Op.push f => (s.push f, [])
  | Op.push_series fs => (s.push_series fs, [])
  | Op.poll c =>
    match s.poll_next_tagged c with
    | (Poll.ready (some w), s2) => (s2, [w])
    | (Poll.ready none, s2) => (s2, [])
    | (Poll.pending, s2) => (s2, [])

/-- run executes a list of operations and concatenates the tagged yields in
the order the consumer observes them. -/
def run {α : Type u} (s : FuturesUnorderedSeries α) :
    List (Op α) → FuturesUnorderedSeries α × List (SeriesWrapper α)
  | [] => (s, [])
  | op :: ops =>
    let p1 := stepOp op s
    let p2 := run p1.1 ops
    (p2.1, p1.2 ++ p2.2)

/-- pollSeq performs a sequence of polls and records every poll result. -/
def pollSeq {α : Type u} (s : FuturesUnorderedSeries α) :
    List PollChoice → FuturesUnorderedSeries α × List (Poll (Option α))
  | [] => (s, [])
  | c :: cs =>
    let p1 := s.poll_next c
    let p2 := pollSeq p1.2 cs
    (p2.1, p1.1 :: p2.2)

/-- Reachable holds of every state obtainable from the empty queue by pushes,
series pushes and polls under any schedule. -/
inductive Reachable {α : Type u} : FuturesUnorderedSeries α → Prop where
  | new : Reachable FuturesUnorderedSeries.new
  | push (s : FuturesUnorderedSeries α) (f : α) :
      Reachable s → Reachable (s.push f)
  | push_series (s : FuturesUnorderedSeries α) (fs : List α) :
      Reachable s → Reachable (s.push_series fs)
  | poll (s : FuturesUnorderedSeries α) (c : PollChoice) :
      Reachable s → Reachable (s.poll_next c).2

/-- enrolledCount counts the inner computations enrolled by a trace. -/
def enrolledCount {α : Type u} : List (Op α) → Nat
  | [] => 0
  | Op.push _ :: ops => 1 + enrolledCount ops
  | Op.push_series fs :: ops => fs.length + enrolledCount ops
  | Op.poll _ :: ops => enrolledCount ops

/-- allocCount counts the index-allocating enrolments of a trace (an empty
series push allocates nothing). -/
def allocCount {α : Type u} : List (Op α) → Nat
  | [] => 0
  | Op.push _ :: ops => 1 + allocCount ops
  | Op.push_series fs :: ops => (if fs.isEmpty then 0 else 1) + allocCount ops
  | Op.poll _ :: ops => allocCount ops

/-- assignedFrom lists, in order, the slot indices assigned by the enrolments
of a trace starting in state s. -/
def assignedFrom {α : Type u} (s : FuturesUnorderedSeries α) : List (Op α) → List Int
  | [] => []
  | Op.push f :: ops => s.next_index :: assignedFrom (s.push f) ops
  | Op.push_series fs :: ops =>
    (if fs.isEmpty then [] else [s.next_index]) ++ assignedFrom (s.push_series fs) ops
  | Op.poll c :: ops => assignedFrom (s.poll_next c).2 ops

/-- slotActive lists the data of the active-set entries tagged with index n
(at most one in any reachable state). -/
def slotActive {α : Type u} (n : Int) (s : FuturesUnorderedSeries α) : List α :=
  (s.in_progress_queue.futures.filter (fun w => w.index == n)).map SeriesWrapper.data

/-- slotTail is the logical (run-order) tail still stored for slot n: the
series table stores it reversed. -/
def slotTail {α : Type u} (n : Int) (s : FuturesUnorderedSeries α) : List α :=
  ((lookupA n s.series_queue).getD []).reverse

/-- slotRemaining is every inner computation of slot n not yet yielded, in the
order it will run. -/
def slotRemaining {α : Type u} (n : Int) (s : FuturesUnorderedSeries α) : List α :=
  slotActive n s ++ slotTail n s

/-- termState is the state after polling with an empty active set: only the
terminated flag of the inner set is raised. -/
def termState {α : Type u} (s : FuturesUnorderedSeries α) : FuturesUnorderedSeries α :=
  { s with in_progress_queue := { s.in_progress_queue with terminated := true } }

/-- promoteState is the state after a poll completed the active future stored
at position i (the tagged result w): the future leaves the active set and, when
the series table holds a tail for its index, the popped tail element re-enters
the active set under the same index. -/
def promoteState {α : Type u} (s : FuturesUnorderedSeries α) (i : Nat)
    (w : SeriesWrapper α) : FuturesUnorderedSeries α :=
  let erased : FuturesUnordered α :=
    { s.in_progress_queue with futures := s.in_progress_queue.futures.eraseIdx i }
  match lookupA w.index s.series_queue with
  | none => { s with in_progress_queue := erased }
  | some tail =>
    match popLast tail with
    | some (next, remaining) =>
      { in_progress_queue := erased.push { data := next, index := w.index },
        series_queue := if remaining.isEmpty
                        then removeA w.index (setA w.index remaining s.series_queue)
                        else setA w.index remaining s.series_queue,
        next_index := s.next_index }
    | none =>
      { in_progress_queue := erased,
        series_queue := removeA w.index s.series_queue,
        next_index := s.next_index }

/-- valSum is the sum of the stored tail lengths of the series table. -/
def valSum {α : Type u} (m : List (Int × List α)) : Nat :=
  (m.map (fun kv => kv.2.length)).sum

/-- QueueInv is the master state invariant of the queue, preserved by every
operation from the empty state. -/
structure QueueInv {α : Type u} (s : FuturesUnorderedSeries α) : Prop where
  keysNodup : (s.series_queue.map Prod.fst).Nodup
  keysLt : ∀ kv ∈ s.series_queue, kv.1 < s.next_index
  tailsNe : ∀ kv ∈ s.series_queue, kv.2 ≠ []
  idxLt : ∀ w ∈ s.in_progress_queue.futures, w.index < s.next_index
  idxNodup : (s.in_progress_queue.futures.map SeriesWrapper.index).Nodup
  keyActive : ∀ kv ∈ s.series_queue, ∃ w ∈ s.in_progress_queue.futures, w.index = kv.1
  termEmpty : s.in_progress_queue.terminated = true → s.in_progress_queue.futures = []

/-- popLast of a non-empty list always succeeds. -/
theorem popLast_cons_ne_none {α : Type u} (t : List α) : ∀ a : α, popLast (a :: t) ≠ none := by
  induction t with
  | nil => intro a h; simp [popLast] at h
  | cons b rest ih =>
    intro a h
    rcases h2 : popLast (b :: rest) with _ | pr
    · exact ih b h2
    · simp [popLast, h2] at h

/-- popLast detaches exactly the last element. -/
theorem popLast_append_singleton {α : Type u} (xs : List α) (a : α) :
    popLast (xs ++ [a]) = some (a, xs) := by
  induction xs with
  | nil => rfl
  | cons x xs ih =>
    cases xs with
    | nil => rfl
    | cons y ys =>
      simp only [List.cons_append] at ih ⊢
      simp [popLast, ih]

/-- A successful popLast decomposes the list as the remainder plus the popped
last element. -/
theorem popLast_eq_some {α : Type u} :
    ∀ {l r : List α} {x : α}, popLast l = some (x, r) → l = r ++ [x] := by
  intro l
  induction l with
  | nil => intro r x h; simp [popLast] at h
  | cons a t ih =>
    intro r x h
    cases t with
    | nil =>
      simp [popLast] at h
      simp [h.1, h.2.symm]
    | cons b rest =>
      rcases h2 : popLast (b :: rest) with _ | pr
      · exact absurd h2 (popLast_cons_ne_none rest b)
      · rw [popLast, h2] at h
        simp only [Option.some.injEq, Prod.mk.injEq] at h
        rcases pr with ⟨y, r0⟩
        have hd := ih h2
        rcases h with ⟨hx, hr⟩
        subst hx
        rw [← hr]
        simpa using hd

/-- popLast of the reversal of a non-empty list detaches its original head. -/
theorem popLast_reverse_cons {α : Type u} (a : α) (l : List α) :
    popLast ((a :: l).reverse) = some (a, l.reverse) := by
  rw [List.reverse_cons]
  exact popLast_append_singleton l.reverse a

/-- Erasing a position whose element fails the filter predicate leaves the
filtered list unchanged. -/
theorem filter_eraseIdx_of_neg {α : Type u} (p : α → Bool) :
    ∀ (l : List α) (i : Nat) (w : α), l[i]? = some w → p w = false →
      (l.eraseIdx i).filter p = l.filter p := by
  intro l
  induction l with
  | nil => intro i w h; simp at h
  | cons a t ih =>
    intro i w h hw
    cases i with
    | zero =>
      simp only [List.getElem?_cons_zero, Option.some.injEq] at h
      subst h
      simp [List.eraseIdx, hw]
    | succ j =>
      simp only [List.getElem?_cons_succ] at h
      have := ih j w h hw
      cases hpa : p a <;> simp [List.eraseIdx, List.filter, hpa, this]

/-- Erasing a position whose element passes the filter removes exactly that
occurrence from the filtered list. -/
theorem filter_eraseIdx_of_pos {α : Type u} (p : α → Bool) :
    ∀ (l : List α) (i : Nat) (w : α), l[i]? = some w → p w = true →
      ∃ A B, l.filter p = A ++ w :: B ∧ (l.eraseIdx i).filter p = A ++ B := by
  intro l
  induction l with
  | nil => intro i w h; simp at h
  | cons a t ih =>
    intro i w h hw
    cases i with
    | zero =>
      simp only [List.getElem?_cons_zero, Option.some.injEq] at h
      subst h
      exact ⟨[], t.filter p, by simp [List.filter, hw], by simp [List.eraseIdx]⟩
    | succ j =>
      simp only [List.getElem?_cons_succ] at h
      rcases ih j w h hw with ⟨A, B, h1, h2⟩
      cases hpa : p a with
      | true =>
        exact ⟨a :: A, B, by simp [List.filter, hpa, h1], by simp [List.eraseIdx, List.filter, hpa, h2]⟩
      | false =>
        exact ⟨A, B, by simp [List.filter, hpa, h1], by simp [List.eraseIdx, List.filter, hpa, h2]⟩

/-- With at most one element passing the filter, completing the element at a
passing position empties the filtered remainder. -/
theorem filter_single_erase {α : Type u} (p : α → Bool) (l : List α) (i : Nat) (w : α)
    (h : l[i]? = some w) (hw : p w = true) (hlen : (l.filter p).length ≤ 1) :
    l.filter p = [w] ∧ (l.eraseIdx i).filter p = [] := by
  rcases filter_eraseIdx_of_pos p l i w h hw with ⟨A, B, h1, h2⟩
  have hA : A = [] ∧ B = [] := by
    have := hlen
    rw [h1] at this
    simp only [List.length_append, List.length_cons] at this
    constructor
    · exact List.eq_nil_of_length_eq_zero (by omega)
    · exact List.eq_nil_of_length_eq_zero (by omega)
  rcases hA with ⟨hA, hB⟩
  subst hA; subst hB
  exact ⟨by simpa using h1, by simpa using h2⟩

/-- Mapping commutes with eraseIdx. -/
theorem map_eraseIdx {α : Type u} {β : Type v} (f : α → β) :
    ∀ (l : List α) (i : Nat), (l.eraseIdx i).map f = (l.map f).eraseIdx i := by
  intro l
  induction l with
  | nil => intro i; simp
  | cons a t ih =>
    intro i
    cases i with
    | zero => simp [List.eraseIdx]
    | succ j => simp [List.eraseIdx, ih j]

/-- Among wrappers with pairwise distinct indices, at most one matches a given
index. -/
theorem filter_index_length_le_one {α : Type u} (n : Int) :
    ∀ l : List (SeriesWrapper α), (l.map SeriesWrapper.index).Nodup →
      (l.filter (fun w => w.index == n)).length ≤ 1 := by
  intro l
  induction l with
  | nil => intro h; simp
  | cons a t ih =>
    intro h
    rw [List.map_cons, List.nodup_cons] at h
    cases hpa : (a.index == n) with
    | false => simpa [List.filter, hpa] using ih h.2
    | true =>
      have han : a.index = n := by simpa using hpa
      have ht : t.filter (fun w => w.index == n) = [] := by
        rw [List.eq_nil_iff_forall_not_mem]
        intro x hx
        rw [List.mem_filter] at hx
        have : x.index = n := by simpa using hx.2
        exact h.1 (by
          rw [han, ← this]
          exact List.mem_map_of_mem SeriesWrapper.index hx.1)
      simp [List.filter, hpa, ht]

/-- lookupA unfolds on a cons cell. -/
theorem lookupA_cons {α : Type u} (k : Int) (kv : Int × List α) (rest : List (Int × List α)) :
    lookupA k (kv :: rest) = if kv.1 = k then some kv.2 else lookupA k rest := rfl

/-- removeA unfolds on a cons cell. -/
theorem removeA_cons {α : Type u} (k : Int) (kv : Int × List α) (rest : List (Int × List α)) :
    removeA k (kv :: rest) = if kv.1 = k then removeA k rest else kv :: removeA k rest := by
  simp only [removeA, List.filter_cons]
  by_cases hk : kv.1 = k
  · simp [hk]
  · simp [bne_iff_ne, hk]

/-- setA unfolds on a cons cell. -/
theorem setA_cons {α : Type u} (k : Int) (v : List α) (kv : Int × List α)
    (rest : List (Int × List α)) :
    setA k v (kv :: rest) = (if kv.1 = k then (k, v) else kv) :: setA k v rest := by
  simp only [setA, List.map_cons]

/-- A successful lookup exposes a member of the association list. -/
theorem lookupA_mem {α : Type u} {k : Int} {t : List α} :
    ∀ {m : List (Int × List α)}, lookupA k m = some t → (k, t) ∈ m := by
  intro m
  induction m with
  | nil => intro h; simp [lookupA] at h
  | cons kv rest ih =>
    rcases kv with ⟨k0, v0⟩
    intro h
    by_cases hk : k0 = k
    · subst hk
      rw [lookupA_cons, if_pos rfl, Option.some.injEq] at h
      subst h
      exact List.mem_cons_self _ _
    · rw [lookupA_cons, if_neg hk] at h
      exact List.mem_cons_of_mem _ (ih h)

/-- Lookup misses when no key matches. -/
theorem lookupA_none {α : Type u} {k : Int} :
    ∀ {m : List (Int × List α)}, (∀ kv ∈ m, kv.1 ≠ k) → lookupA k m = none := by
  intro m
  induction m with
  | nil => intro _; rfl
  | cons kv rest ih =>
    intro h
    rw [lookupA_cons, if_neg (h kv (List.mem_cons_self kv rest))]
    exact ih (fun x hx => h x (List.mem_cons_of_mem kv hx))

/-- Removal keeps exactly the entries with another key. -/
theorem removeA_eq_self {α : Type u} {k : Int} {m : List (Int × List α)}
    (h : ∀ kv ∈ m, kv.1 ≠ k) : removeA k m = m := by
  unfold removeA
  rw [List.filter_eq_self]
  intro kv hkv
  simpa using h kv hkv

/-- Members of the removal result are members of the original with another key. -/
theorem mem_removeA {α : Type u} {k : Int} {m : List (Int × List α)} {kv : Int × List α}
    (h : kv ∈ removeA k m) : kv ∈ m ∧ kv.1 ≠ k := by
  unfold removeA at h
  rw [List.mem_filter] at h
  exact ⟨h.1, by simpa using h.2⟩

/-- Lookup of the removed key misses. -/
theorem lookupA_removeA_self {α : Type u} (k : Int) (m : List (Int × List α)) :
    lookupA k (removeA k m) = none :=
  lookupA_none (fun _ hkv => (mem_removeA hkv).2)

/-- Removal of another key does not change a lookup. -/
theorem lookupA_removeA_ne {α : Type u} {n k : Int} (h : n ≠ k) (m : List (Int × List α)) :
    lookupA n (removeA k m) = lookupA n m := by
  induction m with
  | nil => rfl
  | cons kv rest ih =>
    rw [removeA_cons]
    by_cases hk : kv.1 = k
    · rw [if_pos hk, lookupA_cons, if_neg (by rw [hk]; exact fun e => h e.symm)]
      exact ih
    · rw [if_neg hk, lookupA_cons, lookupA_cons]
      by_cases hn : kv.1 = n
      · rw [if_pos hn, if_pos hn]
      · rw [if_neg hn, if_neg hn]
        exact ih

/-- Setting a key leaves the key list unchanged. -/
theorem keys_setA {α : Type u} (k : Int) (v : List α) (m : List (Int × List α)) :
    (setA k v m).map Prod.fst = m.map Prod.fst := by
  unfold setA
  rw [List.map_map]
  apply List.map_congr_left
  intro kv _
  by_cases hk : kv.1 = k
  · simp [hk]
  · simp [hk]

/-- Members of the set result are the new pair or original members. -/
theorem mem_setA {α : Type u} {k : Int} {v : List α} {m : List (Int × List α)}
    {kv : Int × List α} (h : kv ∈ setA k v m) : kv = (k, v) ∨ kv ∈ m := by
  unfold setA at h
  rw [List.mem_map] at h
  rcases h with ⟨kv0, hmem, heq⟩
  by_cases hk : kv0.1 = k
  · rw [if_pos hk] at heq; exact Or.inl heq.symm
  · rw [if_neg hk] at heq; exact Or.inr (heq ▸ hmem)

/-- Setting the looked-up key updates exactly that lookup. -/
theorem lookupA_setA_self {α : Type u} {k : Int} {t : List α} (v : List α) :
    ∀ {m : List (Int × List α)}, lookupA k m = some t → lookupA k (setA k v m) = some v := by
  intro m
  induction m with
  | nil => intro h; simp [lookupA] at h
  | cons kv rest ih =>
    intro h
    rw [setA_cons]
    by_cases hk : kv.1 = k
    · rw [if_pos hk, lookupA_cons, if_pos rfl]
    · rw [lookupA_cons, if_neg hk] at h
      rw [if_neg hk, lookupA_cons, if_neg hk]
      exact ih h

/-- Setting another key does not change a lookup. -/
theorem lookupA_setA_ne {α : Type u} {n k : Int} (h : n ≠ k) (v : List α)
    (m : List (Int × List α)) : lookupA n (setA k v m) = lookupA n m := by
  induction m with
  | nil => rfl
  | cons kv rest ih =>
    rw [setA_cons]
    by_cases hk : kv.1 = k
    · rw [if_pos hk, lookupA_cons, lookupA_cons, if_neg (by exact fun e => h e.symm),
        if_neg (by rw [hk]; exact fun e => h e.symm)]
      exact ih
    · rw [if_neg hk, lookupA_cons, lookupA_cons]
      by_cases hn : kv.1 = n
      · rw [if_pos hn, if_pos hn]
      · rw [if_neg hn, if_neg hn]
        exact ih

/-- Removing a key erases the effect of setting it. -/
theorem removeA_setA {α : Type u} (k : Int) (v : List α) (m : List (Int × List α)) :
    removeA k (setA k v m) = removeA k m := by
  induction m with
  | nil => rfl
  | cons kv rest ih =>
    by_cases hk : kv.1 = k
    · rw [setA_cons, if_pos hk, removeA_cons, if_pos (rfl : ((k, v) : Int × List α).1 = k),
        removeA_cons, if_pos hk]
      exact ih
    · rw [setA_cons, if_neg hk, removeA_cons, if_neg hk, removeA_cons, if_neg hk, ih]

/-- valSum of a cons cell. -/
theorem valSum_cons {α : Type u} (kv : Int × List α) (m : List (Int × List α)) :
    valSum (kv :: m) = kv.2.length + valSum m := by
  simp [valSum]

/-- Setting an absent key is the identity. -/
theorem setA_eq_self {α : Type u} {k : Int} (v : List α) :
    ∀ {m : List (Int × List α)}, (∀ kv ∈ m, kv.1 ≠ k) → setA k v m = m := by
  intro m
  induction m with
  | nil => intro _; rfl
  | cons kv rest ih =>
    intro h
    rw [setA_cons, if_neg (h kv (List.mem_cons_self kv rest)),
      ih (fun x hx => h x (List.mem_cons_of_mem kv hx))]

/-- A missed lookup means no entry carries the key. -/
theorem lookup_none_forall {α : Type u} {k : Int} :
    ∀ {m : List (Int × List α)}, lookupA k m = none → ∀ kv ∈ m, kv.1 ≠ k := by
  intro m
  induction m with
  | nil => intro _ kv hkv; simp at hkv
  | cons kv0 rest ih =>
    intro h kv hkv
    rw [lookupA_cons] at h
    by_cases hk : kv0.1 = k
    · rw [if_pos hk] at h; exact absurd h (by simp)
    · rw [if_neg hk] at h
      rcases List.mem_cons.mp hkv with he | hm
      · rw [he]; exact hk
      · exact ih h kv hm

/-- Removing an absent key is the identity. -/
theorem removeA_of_lookup_none {α : Type u} {k : Int} {m : List (Int × List α)}
    (h : lookupA k m = none) : removeA k m = m :=
  removeA_eq_self (lookup_none_forall h)

/-- With distinct keys, setting a present key trades its stored tail length for
the new one in the total. -/
theorem valSum_setA {α : Type u} {k : Int} {t : List α} (v : List α) :
    ∀ {m : List (Int × List α)}, (m.map Prod.fst).Nodup → lookupA k m = some t →
      valSum (setA k v m) + t.length = valSum m + v.length := by
  intro m
  induction m with
  | nil => intro _ h; simp [lookupA] at h
  | cons kv rest ih =>
    intro hnd h
    rw [List.map_cons, List.nodup_cons] at hnd
    by_cases hk : kv.1 = k
    · rw [lookupA_cons, if_pos hk, Option.some.injEq] at h
      have hrest : setA k v rest = rest := by
        apply setA_eq_self
        intro kv' hkv' he
        have hmem : kv'.1 ∈ rest.map Prod.fst := List.mem_map_of_mem Prod.fst hkv'
        rw [he, ← hk] at hmem
        exact hnd.1 hmem
      rw [setA_cons, if_pos hk, hrest, valSum_cons, valSum_cons, ← h]
      show v.length + valSum rest + kv.2.length = kv.2.length + valSum rest + v.length
      omega
    · rw [lookupA_cons, if_neg hk] at h
      rw [setA_cons, if_neg hk, valSum_cons, valSum_cons]
      have := ih hnd.2 h
      omega

/-- With distinct keys, removing a present key subtracts its stored tail length
from the total. -/
theorem valSum_removeA {α : Type u} {k : Int} {t : List α} :
    ∀ {m : List (Int × List α)}, (m.map Prod.fst).Nodup → lookupA k m = some t →
      valSum (removeA k m) + t.length = valSum m := by
  intro m
  induction m with
  | nil => intro _ h; simp [lookupA] at h
  | cons kv rest ih =>
    intro hnd h
    rw [List.map_cons, List.nodup_cons] at hnd
    by_cases hk : kv.1 = k
    · rw [lookupA_cons, if_pos hk, Option.some.injEq] at h
      have hrest : removeA k rest = rest := by
        apply removeA_eq_self
        intro kv' hkv' he
        have hmem : kv'.1 ∈ rest.map Prod.fst := List.mem_map_of_mem Prod.fst hkv'
        rw [he, ← hk] at hmem
        exact hnd.1 hmem
      rw [removeA_cons, if_pos hk, hrest, valSum_cons, ← h]
      omega
    · rw [lookupA_cons, if_neg hk] at h
      rw [removeA_cons, if_neg hk, valSum_cons, valSum_cons]
      have := ih hnd.2 h
      omega

/-- The fold in the source len is the tail-length sum. -/
theorem foldl_len {α : Type u} :
    ∀ (m : List (Int × List α)) (a : Nat),
      m.foldl (fun acc kv => acc + kv.2.length) a = a + valSum m := by
  intro m
  induction m with
  | nil => intro a; simp [valSum]
  | cons kv rest ih =>
    intro a
    rw [List.foldl_cons, ih, valSum_cons]
    omega

/-- len splits into active-set size plus the tail-length sum. -/
theorem len_eq {α : Type u} (s : FuturesUnorderedSeries α) :
    s.len = s.in_progress_queue.futures.length + valSum s.series_queue := by
  unfold FuturesUnorderedSeries.len FuturesUnordered.len
  rw [foldl_len]
  omega

/-- push_series on the empty vector is the identity on the state. -/
theorem push_series_nil {α : Type u} (s : FuturesUnorderedSeries α) :
    s.push_series [] = s := rfl

/-- push_series on a non-empty vector, unfolded. -/
theorem push_series_cons {α : Type u} (s : FuturesUnorderedSeries α) (a : α) (l : List α) :
    s.push_series (a :: l) =
      { in_progress_queue := s.in_progress_queue.push { data := a, index := s.next_index },
        series_queue := if l.reverse.isEmpty then s.series_queue
                        else insertA s.next_index l.reverse s.series_queue,
        next_index := s.next_index + 1 } := by
  simp only [FuturesUnorderedSeries.push_series, popLast_reverse_cons]

/-- Polling an empty inner set reports end-of-stream and raises the flag. -/
theorem fu_poll_empty {α : Type u} (c : PollChoice) {q : FuturesUnordered α}
    (h : q.futures = []) :
    q.poll_next c = (Poll.ready none, { q with terminated := true }) := by
  unfold FuturesUnordered.poll_next
  rw [if_pos (by simp [h])]

/-- Polling a non-empty inner set with no completion reports pending. -/
theorem fu_poll_pending {α : Type u} {q : FuturesUnordered α} (h : q.futures ≠ []) :
    q.poll_next PollChoice.pending = (Poll.pending, q) := by
  unfold FuturesUnordered.poll_next
  rw [if_neg (by simp [h])]

/-- Polling with a stale completion choice reports pending. -/
theorem fu_poll_miss {α : Type u} {q : FuturesUnordered α} {i : Nat} (h : q.futures ≠ [])
    (hm : q.futures[i]? = none) :
    q.poll_next (PollChoice.complete i) = (Poll.pending, q) := by
  unfold FuturesUnordered.poll_next
  rw [if_neg (by simp [h])]
  simp [hm]

/-- Polling with a valid completion choice detaches exactly that future. -/
theorem fu_poll_hit {α : Type u} {q : FuturesUnordered α} {i : Nat} {w : SeriesWrapper α}
    (h : q.futures[i]? = some w) :
    q.poll_next (PollChoice.complete i) =
      (Poll.ready (some w), { q with futures := q.futures.eraseIdx i }) := by
  have hne : q.futures ≠ [] := by
    intro he
    rw [he] at h
    simp at h
  unfold FuturesUnordered.poll_next
  rw [if_neg (by simp [hne])]
  simp [h]

/-- poll_next_tagged on an empty active set: end-of-stream, flag raised. -/
theorem ptag_empty {α : Type u} (c : PollChoice) {s : FuturesUnorderedSeries α}
    (h : s.in_progress_queue.futures = []) :
    s.poll_next_tagged c = (Poll.ready none, termState s) := by
  unfold FuturesUnorderedSeries.poll_next_tagged
  rw [fu_poll_empty c h]
  rfl

/-- poll_next_tagged with no completion: pending and unchanged state. -/
theorem ptag_pending {α : Type u} {s : FuturesUnorderedSeries α}
    (h : s.in_progress_queue.futures ≠ []) :
    s.poll_next_tagged PollChoice.pending = (Poll.pending, s) := by
  unfold FuturesUnorderedSeries.poll_next_tagged
  rw [fu_poll_pending h]

/-- poll_next_tagged with a stale completion choice: pending, unchanged state. -/
theorem ptag_miss {α : Type u} {s : FuturesUnorderedSeries α} {i : Nat}
    (h : s.in_progress_queue.futures ≠ []) (hm : s.in_progress_queue.futures[i]? = none) :
    s.poll_next_tagged (PollChoice.complete i) = (Poll.pending, s) := by
  unfold FuturesUnorderedSeries.poll_next_tagged
  rw [fu_poll_miss h hm]

/-- poll_next_tagged completing the future at position i yields it tagged and
moves to the promoted state. -/
theorem ptag_hit {α : Type u} {s : FuturesUnorderedSeries α} {i : Nat} {w : SeriesWrapper α}
    (h : s.in_progress_queue.futures[i]? = some w) :
    s.poll_next_tagged (PollChoice.complete i) =
      (Poll.ready (some w), promoteState s i w) := by
  unfold FuturesUnorderedSeries.poll_next_tagged
  rw [fu_poll_hit h]
  unfold promoteState
  rcases hl : lookupA w.index s.series_queue with _ | tail
  · simp only [hl]
  · rcases hp : popLast tail with _ | pr
    · simp only [hl, hp]
    · rcases pr with ⟨nxt, rem⟩
      simp only [hl, hp]

/-- Every poll falls in one of three shapes: end-of-stream on an empty active
set, pending, or completion of one contained future. -/
theorem ptag_cases {α : Type u} (c : PollChoice) (s : FuturesUnorderedSeries α) :
    (s.in_progress_queue.futures = [] ∧
      s.poll_next_tagged c = (Poll.ready none, termState s)) ∨
    s.poll_next_tagged c = (Poll.pending, s) ∨
    (∃ i w, s.in_progress_queue.futures[i]? = some w ∧
      s.poll_next_tagged c = (Poll.ready (some w), promoteState s i w)) := by
  by_cases he : s.in_progress_queue.futures = []
  · exact Or.inl ⟨he, ptag_empty c he⟩
  · cases c with
    | pending => exact Or.inr (Or.inl (ptag_pending he))
    | complete i =>
      rcases hm : s.in_progress_queue.futures[i]? with _ | w
      · exact Or.inr (Or.inl (ptag_miss he hm))
      · exact Or.inr (Or.inr ⟨i, w, hm, ptag_hit hm⟩)

/-- poll_next and poll_next_tagged move to the same state. -/
theorem poll_next_snd {α : Type u} (c : PollChoice) (s : FuturesUnorderedSeries α) :
    (s.poll_next c).2 = (s.poll_next_tagged c).2 := by
  unfold FuturesUnorderedSeries.poll_next
  rcases h : s.poll_next_tagged c with ⟨p, s2⟩
  cases p with
  | pending => rfl
  | ready v => cases v with
    | none => rfl
    | some w => rfl

/-- The state reached by stepOp on a poll is the poll_next_tagged state. -/
theorem stepOp_poll_fst {α : Type u} (c : PollChoice) (s : FuturesUnorderedSeries α) :
    (stepOp (Op.poll c) s).1 = (s.poll_next_tagged c).2 := by
  show (match s.poll_next_tagged c with
        | (Poll.ready (some w), s2) => (s2, [w])
        | (Poll.ready none, s2) => (s2, [])
        | (Poll.pending, s2) => (s2, [])).1 = (s.poll_next_tagged c).2
  rcases h : s.poll_next_tagged c with ⟨p, s2⟩
  cases p with
  | pending => rfl
  | ready v => cases v with
    | none => rfl
    | some w => rfl

/-- The yields of stepOp on a poll, by the shape of the poll result. -/
theorem stepOp_poll_snd {α : Type u} (c : PollChoice) (s : FuturesUnorderedSeries α) :
    (stepOp (Op.poll c) s).2 =
      (match (s.poll_next_tagged c).1 with
       | Poll.ready (some w) => [w]
       | Poll.ready none => []
       | Poll.pending => []) := by
  show (match s.poll_next_tagged c with
        | (Poll.ready (some w), s2) => (s2, [w])
        | (Poll.ready none, s2) => (s2, [])
        | (Poll.pending, s2) => (s2, [])).2 = _
  rcases h : s.poll_next_tagged c with ⟨p, s2⟩
  cases p with
  | pending => rfl
  | ready v => cases v with
    | none => rfl
    | some w => rfl

/-- popLast succeeds on any non-empty list. -/
theorem popLast_ne_none {α : Type u} {l : List α} (h : l ≠ []) : popLast l ≠ none := by
  cases l with
  | nil => exact absurd rfl h
  | cons a t => exact popLast_cons_ne_none t a

/-- Fields of a push. -/
theorem push_futures {α : Type u} (s : FuturesUnorderedSeries α) (f : α) :
    (s.push f).in_progress_queue.futures =
      { data := f, index := s.next_index } :: s.in_progress_queue.futures := rfl

/-- Series table of a push. -/
theorem push_series_queue {α : Type u} (s : FuturesUnorderedSeries α) (f : α) :
    (s.push f).series_queue = s.series_queue := rfl

/-- Counter of a push. -/
theorem push_next_index {α : Type u} (s : FuturesUnorderedSeries α) (f : α) :
    (s.push f).next_index = s.next_index + 1 := rfl

/-- Flag of a push. -/
theorem push_terminated {α : Type u} (s : FuturesUnorderedSeries α) (f : α) :
    (s.push f).in_progress_queue.terminated = false := rfl

/-- Fields of termState. -/
theorem termState_futures {α : Type u} (s : FuturesUnorderedSeries α) :
    (termState s).in_progress_queue.futures = s.in_progress_queue.futures := rfl

/-- Series table of termState. -/
theorem termState_series_queue {α : Type u} (s : FuturesUnorderedSeries α) :
    (termState s).series_queue = s.series_queue := rfl

/-- Counter of termState. -/
theorem termState_next_index {α : Type u} (s : FuturesUnorderedSeries α) :
    (termState s).next_index = s.next_index := rfl

/-- promoteState when the completed index has no stored tail. -/
theorem promoteState_none {α : Type u} {s : FuturesUnorderedSeries α} {i : Nat}
    {w : SeriesWrapper α} (h : lookupA w.index s.series_queue = none) :
    promoteState s i w =
      { s with in_progress_queue :=
          { s.in_progress_queue with futures := s.in_progress_queue.futures.eraseIdx i } } := by
  unfold promoteState
  simp only [h]

/-- promoteState when a tail is stored: its last stored element (the head of
the run-order tail) is promoted under the same index, and the entry is removed
exactly when nothing remains. -/
theorem promoteState_pop {α : Type u} {s : FuturesUnorderedSeries α} {i : Nat}
    {w : SeriesWrapper α} {tail nxt rem} (h : lookupA w.index s.series_queue = some tail)
    (hp : popLast tail = some (nxt, rem)) :
    promoteState s i w =
      { in_progress_queue :=
          { futures := { data := nxt, index := w.index } ::
              s.in_progress_queue.futures.eraseIdx i,
            terminated := false },
        series_queue := if rem.isEmpty then removeA w.index s.series_queue
                        else setA w.index rem s.series_queue,
        next_index := s.next_index } := by
  unfold promoteState
  simp only [h, hp]
  rw [removeA_setA]
  rfl

/-- An empty index filter means the index is absent. -/
theorem not_mem_index_of_filter_nil {α : Type u} {n : Int} {l : List (SeriesWrapper α)}
    (h : l.filter (fun x => x.index == n) = []) : n ∉ l.map SeriesWrapper.index := by
  intro hmem
  rw [List.mem_map] at hmem
  rcases hmem with ⟨x, hx, he⟩
  have : x ∈ l.filter (fun y => y.index == n) :=
    List.mem_filter.mpr ⟨hx, by simp [he]⟩
  rw [h] at this
  simp at this

/-- Erasing the completed position keeps every wrapper with another index. -/
theorem mem_erase_of_index_ne {α : Type u} {l : List (SeriesWrapper α)} {i : Nat}
    {w x : SeriesWrapper α} (hg : l[i]? = some w) (hx : x ∈ l)
    (hne : x.index ≠ w.index) : x ∈ l.eraseIdx i := by
  have hfe := filter_eraseIdx_of_neg (fun y => y.index == x.index) l i w hg
    (beq_eq_false_iff_ne.mpr (fun e => hne e.symm))
  have hmem : x ∈ l.filter (fun y => y.index == x.index) :=
    List.mem_filter.mpr ⟨hx, by simp⟩
  rw [← hfe] at hmem
  exact (List.mem_filter.mp hmem).1

/-- Distinct indices survive eraseIdx. -/
theorem nodup_index_eraseIdx {α : Type u} {l : List (SeriesWrapper α)} (i : Nat)
    (h : (l.map SeriesWrapper.index).Nodup) :
    ((l.eraseIdx i).map SeriesWrapper.index).Nodup := by
  rw [map_eraseIdx]
  exact h.sublist (List.eraseIdx_sublist _ i)

/-- After erasing the completed position, its index is gone from the active
set (indices being distinct). -/
theorem index_not_mem_erase {α : Type u} {l : List (SeriesWrapper α)} {i : Nat}
    {w : SeriesWrapper α} (hg : l[i]? = some w) (h : (l.map SeriesWrapper.index).Nodup) :
    w.index ∉ (l.eraseIdx i).map SeriesWrapper.index := by
  have hlen := filter_index_length_le_one w.index l h
  have hfs := filter_single_erase (fun x => x.index == w.index) l i w hg
    (beq_self_eq_true w.index) hlen
  exact not_mem_index_of_filter_nil hfs.2

/-- A one-element series is enrolled exactly like a single push. -/
theorem push_series_singleton {α : Type u} (s : FuturesUnorderedSeries α) (a : α) :
    s.push_series [a] = s.push a := rfl

/-- Distinct keys survive removal. -/
theorem keys_removeA_nodup {α : Type u} {k : Int} {m : List (Int × List α)}
    (h : (m.map Prod.fst).Nodup) : ((removeA k m).map Prod.fst).Nodup :=
  h.sublist ((List.filter_sublist m).map Prod.fst)

/-- The empty queue satisfies the invariant. -/
theorem inv_new {α : Type u} : QueueInv (FuturesUnorderedSeries.new (α := α)) := by
  constructor
  · simp [FuturesUnorderedSeries.new]
  · intro kv hkv; simp [FuturesUnorderedSeries.new] at hkv
  · intro kv hkv; simp [FuturesUnorderedSeries.new] at hkv
  · intro w hw; simp [FuturesUnorderedSeries.new, FuturesUnordered.new] at hw
  · simp [FuturesUnorderedSeries.new, FuturesUnordered.new]
  · intro kv hkv; simp [FuturesUnorderedSeries.new] at hkv
  · intro _; rfl

/-- push preserves the invariant. -/
theorem inv_push {α : Type u} {s : FuturesUnorderedSeries α} (h : QueueInv s) (f : α) :
    QueueInv (s.push f) := by
  constructor
  · rw [push_series_queue]; exact h.keysNodup
  · intro kv hkv
    rw [push_series_queue] at hkv
    rw [push_next_index]
    have := h.keysLt kv hkv
    omega
  · intro kv hkv
    rw [push_series_queue] at hkv
    exact h.tailsNe kv hkv
  · intro w hw
    rw [push_futures] at hw
    rw [push_next_index]
    rcases List.mem_cons.mp hw with he | hm
    · rw [he]; show s.next_index < s.next_index + 1; omega
    · have := h.idxLt w hm; omega
  · rw [push_futures, List.map_cons, List.nodup_cons]
    refine ⟨?_, h.idxNodup⟩
    intro hmem
    rw [List.mem_map] at hmem
    rcases hmem with ⟨x, hx, he⟩
    have hxi : x.index = s.next_index := he
    have := h.idxLt x hx
    rw [hxi] at this
    exact absurd this (lt_irrefl _)
  · intro kv hkv
    rw [push_series_queue] at hkv
    rcases h.keyActive kv hkv with ⟨x, hx, hxe⟩
    exact ⟨x, by rw [push_futures]; exact List.mem_cons_of_mem _ hx, hxe⟩
  · rw [push_terminated]
    intro ht
    exact absurd ht (by simp)

/-- Raising the flag on an empty active set preserves the invariant. -/
theorem inv_term {α : Type u} {s : FuturesUnorderedSeries α} (h : QueueInv s)
    (he : s.in_progress_queue.futures = []) : QueueInv (termState s) := by
  constructor
  · rw [termState_series_queue]; exact h.keysNodup
  · intro kv hkv
    rw [termState_series_queue] at hkv
    rw [termState_next_index]
    exact h.keysLt kv hkv
  · intro kv hkv
    rw [termState_series_queue] at hkv
    exact h.tailsNe kv hkv
  · intro w hw
    rw [termState_futures] at hw
    rw [termState_next_index]
    exact h.idxLt w hw
  · rw [termState_futures]; exact h.idxNodup
  · intro kv hkv
    rw [termState_series_queue] at hkv
    rcases h.keyActive kv hkv with ⟨x, hx, hxe⟩
    exact ⟨x, by rw [termState_futures]; exact hx, hxe⟩
  · intro _
    rw [termState_futures]
    exact he

/-- push_series preserves the invariant. -/
theorem inv_push_series {α : Type u} {s : FuturesUnorderedSeries α} (h : QueueInv s)
    (fs : List α) : QueueInv (s.push_series fs) := by
  cases fs with
  | nil => rw [push_series_nil]; exact h
  | cons a l =>
    by_cases hl : l = []
    · subst hl
      rw [push_series_singleton]
      exact inv_push h a
    · rw [push_series_cons, if_neg (by simp [hl])]
      have hfresh : ∀ kv ∈ s.series_queue, kv.1 ≠ s.next_index :=
        fun kv hkv => ne_of_lt (h.keysLt kv hkv)
      have hins : insertA s.next_index l.reverse s.series_queue
          = (s.next_index, l.reverse) :: s.series_queue := by
        unfold insertA
        rw [removeA_eq_self hfresh]
      rw [hins]
      constructor
      · show (((s.next_index, l.reverse) :: s.series_queue).map Prod.fst).Nodup
        rw [List.map_cons, List.nodup_cons]
        refine ⟨?_, h.keysNodup⟩
        intro hmem
        rw [List.mem_map] at hmem
        rcases hmem with ⟨kv, hkv, he⟩
        exact absurd he (hfresh kv hkv)
      · intro kv hkv
        replace hkv : kv ∈ (s.next_index, l.reverse) :: s.series_queue := hkv
        show kv.1 < s.next_index + 1
        rcases List.mem_cons.mp hkv with he | hm
        · rw [he]; omega
        · have := h.keysLt kv hm; omega
      · intro kv hkv
        replace hkv : kv ∈ (s.next_index, l.reverse) :: s.series_queue := hkv
        rcases List.mem_cons.mp hkv with he | hm
        · rw [he]; show l.reverse ≠ []; simpa using hl
        · exact h.tailsNe kv hm
      · intro w hw
        replace hw : w ∈ { data := a, index := s.next_index } :: s.in_progress_queue.futures := hw
        show w.index < s.next_index + 1
        rcases List.mem_cons.mp hw with he | hm
        · rw [he]; show s.next_index < s.next_index + 1; omega
        · have := h.idxLt w hm; omega
      · show ((({ data := a, index := s.next_index } : SeriesWrapper α) ::
            s.in_progress_queue.futures).map SeriesWrapper.index).Nodup
        rw [List.map_cons, List.nodup_cons]
        refine ⟨?_, h.idxNodup⟩
        intro hmem
        rw [List.mem_map] at hmem
        rcases hmem with ⟨x, hx, he⟩
        have hxi : x.index = s.next_index := he
        have := h.idxLt x hx
        rw [hxi] at this
        exact absurd this (lt_irrefl _)
      · intro kv hkv
        replace hkv : kv ∈ (s.next_index, l.reverse) :: s.series_queue := hkv
        rcases List.mem_cons.mp hkv with he | hm
        · refine ⟨{ data := a, index := s.next_index }, List.mem_cons_self _ _, ?_⟩
          rw [he]
        · rcases h.keyActive kv hm with ⟨x, hx, hxe⟩
          exact ⟨x, List.mem_cons_of_mem _ hx, hxe⟩
      · intro ht
        exact absurd ht (by simp [FuturesUnordered.push])

/-- Completing one active future (with its promotion step) preserves the
invariant. -/
theorem inv_promote {α : Type u} {s : FuturesUnorderedSeries α} {i : Nat}
    {w : SeriesWrapper α} (h : QueueInv s)
    (hg : s.in_progress_queue.futures[i]? = some w) :
    QueueInv (promoteState s i w) := by
  have hwmem : w ∈ s.in_progress_queue.futures := List.getElem?_mem hg
  have hwlt : w.index < s.next_index := h.idxLt w hwmem
  have herased_sub : ∀ x ∈ s.in_progress_queue.futures.eraseIdx i,
      x ∈ s.in_progress_queue.futures :=
    fun x hx => (List.eraseIdx_sublist _ i).subset hx
  rcases hl : lookupA w.index s.series_queue with _ | tail
  · rw [promoteState_none hl]
    have hkeys := lookup_none_forall hl
    constructor
    · exact h.keysNodup
    · intro kv hkv; exact h.keysLt kv hkv
    · intro kv hkv; exact h.tailsNe kv hkv
    · intro x hx
      replace hx : x ∈ s.in_progress_queue.futures.eraseIdx i := hx
      exact h.idxLt x (herased_sub x hx)
    · exact nodup_index_eraseIdx i h.idxNodup
    · intro kv hkv
      rcases h.keyActive kv hkv with ⟨x, hx, hxe⟩
      refine ⟨x, ?_, hxe⟩
      show x ∈ s.in_progress_queue.futures.eraseIdx i
      apply mem_erase_of_index_ne hg hx
      rw [hxe]
      exact hkeys kv hkv
    · intro ht
      replace ht : s.in_progress_queue.terminated = true := ht
      have := h.termEmpty ht
      rw [this] at hwmem
      simp at hwmem
  · have htne : tail ≠ [] := h.tailsNe (w.index, tail) (lookupA_mem hl)
    rcases hp : popLast tail with _ | pr
    · exact absurd hp (popLast_ne_none htne)
    · rcases pr with ⟨nxt, rem⟩
      rw [promoteState_pop hl hp]
      have hhead_nodup : ((({ data := nxt, index := w.index } : SeriesWrapper α) ::
          s.in_progress_queue.futures.eraseIdx i).map SeriesWrapper.index).Nodup := by
        rw [List.map_cons, List.nodup_cons]
        refine ⟨?_, nodup_index_eraseIdx i h.idxNodup⟩
        show w.index ∉ (s.in_progress_queue.futures.eraseIdx i).map SeriesWrapper.index
        exact index_not_mem_erase hg h.idxNodup
      by_cases hrem : rem.isEmpty
      · rw [if_pos hrem]
        constructor
        · exact keys_removeA_nodup h.keysNodup
        · intro kv hkv
          replace hkv : kv ∈ removeA w.index s.series_queue := hkv
          exact h.keysLt kv (mem_removeA hkv).1
        · intro kv hkv
          replace hkv : kv ∈ removeA w.index s.series_queue := hkv
          exact h.tailsNe kv (mem_removeA hkv).1
        · intro x hx
          replace hx : x ∈ ({ data := nxt, index := w.index } : SeriesWrapper α) ::
              s.in_progress_queue.futures.eraseIdx i := hx
          rcases List.mem_cons.mp hx with he | hm
          · rw [he]; exact hwlt
          · exact h.idxLt x (herased_sub x hm)
        · exact hhead_nodup
        · intro kv hkv
          replace hkv : kv ∈ removeA w.index s.series_queue := hkv
          rcases mem_removeA hkv with ⟨hmem, hne⟩
          rcases h.keyActive kv hmem with ⟨x, hx, hxe⟩
          refine ⟨x, ?_, hxe⟩
          apply List.mem_cons_of_mem
          apply mem_erase_of_index_ne hg hx
          rw [hxe]
          exact fun e => hne e
        · intro ht
          exact absurd ht (by simp)
      · rw [if_neg hrem]
        constructor
        · show (((setA w.index rem s.series_queue)).map Prod.fst).Nodup
          rw [keys_setA]
          exact h.keysNodup
        · intro kv hkv
          replace hkv : kv ∈ setA w.index rem s.series_queue := hkv
          rcases mem_setA hkv with he | hm
          · rw [he]; exact hwlt
          · exact h.keysLt kv hm
        · intro kv hkv
          replace hkv : kv ∈ setA w.index rem s.series_queue := hkv
          rcases mem_setA hkv with he | hm
          · rw [he]
            show rem ≠ []
            simpa using hrem
          · exact h.tailsNe kv hm
        · intro x hx
          replace hx : x ∈ ({ data := nxt, index := w.index } : SeriesWrapper α) ::
              s.in_progress_queue.futures.eraseIdx i := hx
          rcases List.mem_cons.mp hx with he | hm
          · rw [he]; exact hwlt
          · exact h.idxLt x (herased_sub x hm)
        · exact hhead_nodup
        · intro kv hkv
          replace hkv : kv ∈ setA w.index rem s.series_queue := hkv
          by_cases hki : kv.1 = w.index
          · refine ⟨{ data := nxt, index := w.index }, List.mem_cons_self _ _, ?_⟩
            rw [hki]
          · have hmem : kv ∈ s.series_queue := by
              rcases mem_setA hkv with he | hm
              · exact absurd (by rw [he]) hki
              · exact hm
            rcases h.keyActive kv hmem with ⟨x, hx, hxe⟩
            refine ⟨x, ?_, hxe⟩
            apply List.mem_cons_of_mem
            apply mem_erase_of_index_ne hg hx
            rw [hxe]
            exact hki
        · intro ht
          exact absurd ht (by simp)

/-- One tagged poll preserves the invariant. -/
theorem inv_ptag {α : Type u} {s : FuturesUnorderedSeries α} (h : QueueInv s)
    (c : PollChoice) : QueueInv (s.poll_next_tagged c).2 := by
  rcases ptag_cases c s with ⟨he, heq⟩ | heq | ⟨i, w, hg, heq⟩
  · rw [heq]; exact inv_term h he
  · rw [heq]; exact h
  · rw [heq]; exact inv_promote h hg

/-- Every reachable state satisfies the invariant. -/
theorem reachable_inv {α : Type u} {s : FuturesUnorderedSeries α} (h : Reachable s) :
    QueueInv s := by
  induction h with
  | new => exact inv_new
  | push s f _ ih => exact inv_push ih f
  | push_series s fs _ ih => exact inv_push_series ih fs
  | poll s c _ ih =>
    rw [poll_next_snd]
    exact inv_ptag ih c

/-- C7: push_series applied to an empty sequence is a complete no-op: the state
(counter included) is unchanged, len stays 0 on the empty queue, and a
subsequent push assigns the index that was next free before the call. -/
theorem c7_empty_series_noop {α : Type u} (s : FuturesUnorderedSeries α) (f : α) :
    s.push_series [] = s
    ∧ ((FuturesUnorderedSeries.new (α := α)).push_series []).len = 0
    ∧ ((s.push_series []).push f).next_index = s.next_index + 1
    ∧ ((s.push_series []).push f).in_progress_queue.futures.head? =
        some { data := f, index := s.next_index } :=
  ⟨rfl, rfl, rfl, rfl⟩

/-- C10: push_series on a one-element sequence leaves the queue in exactly the
same state as push of that element: same index assigned, counter advanced by
one, future in the active set, no series-table entry. -/
theorem c10_singleton_series_eq_push {α : Type u} (s : FuturesUnorderedSeries α) (f : α) :
    s.push_series [f] = s.push f := rfl

/-- C1 (failing-input evaluation): two singleton enrolments, value 10 at slot 0
then value 20 at slot 1; the schedule completes slot 1 first. poll_next yields
the result of slot 1 before the result of slot 0, so an inner result of the
later enrolment reaches the consumer before the result of the earlier
enrolment: the live code yields in completion order across slots, not
enrolment order. -/
theorem c1_completion_order_evaluation :
    (run (FuturesUnorderedSeries.new (α := Nat))
      [Op.push 10, Op.push 20, Op.poll (PollChoice.complete 0),
       Op.poll (PollChoice.complete 0)]).2 =
      [{ data := 20, index := 1 }, { data := 10, index := 0 }] := rfl

/-- C4: when poll_next obtains a ready tagged result whose index is present in
the series table, it detaches exactly the head of the run-order tail (the last
stored element), re-tags it with the same index, pushes it into the active set,
removes the entry exactly when the tail became empty, and returns ready of the
value with the slot index stripped. -/
theorem c4_poll_promotion {α : Type u} (s : FuturesUnorderedSeries α) (i : Nat)
    (w : SeriesWrapper α) (tail : List α) (nxt : α) (rem : List α)
    (hg : s.in_progress_queue.futures[i]? = some w)
    (hl : lookupA w.index s.series_queue = some tail)
    (hp : popLast tail = some (nxt, rem)) :
    tail.reverse = nxt :: rem.reverse
    ∧ s.poll_next (PollChoice.complete i) =
      (Poll.ready (some w.data),
       { in_progress_queue :=
           { futures := { data := nxt, index := w.index } ::
               s.in_progress_queue.futures.eraseIdx i,
             terminated := false },
         series_queue := if rem.isEmpty then removeA w.index s.series_queue
                         else setA w.index rem s.series_queue,
         next_index := s.next_index }) := by
  constructor
  · rw [popLast_eq_some hp]
    simp
  · unfold FuturesUnorderedSeries.poll_next
    rw [ptag_hit hg, promoteState_pop hl hp]

/-- Witness for C4 at a concrete three-element series. -/
theorem c4_poll_promotion_witness :
    ((FuturesUnorderedSeries.new (α := Nat)).push_series [3, 4, 5]).poll_next
        (PollChoice.complete 0) =
      (Poll.ready (some 3),
       { in_progress_queue := { futures := [{ data := 4, index := 0 }], terminated := false },
         series_queue := [(0, [5])],
         next_index := 1 }) :=
  (c4_poll_promotion ((FuturesUnorderedSeries.new (α := Nat)).push_series [3, 4, 5]) 0
    { data := 3, index := 0 } [5, 4] 4 [5] rfl rfl rfl).2

/-- C5: in every reachable state, every series-table key maps to a non-empty
tail and has exactly one tagged computation with that index in the active set;
hence a non-empty series table forces a non-empty active set. -/
theorem c5_series_table_invariant {α : Type u} (s : FuturesUnorderedSeries α)
    (h : Reachable s) :
    (∀ kv ∈ s.series_queue, kv.2 ≠ [] ∧
      (s.in_progress_queue.futures.filter (fun x => x.index == kv.1)).length = 1)
    ∧ (s.series_queue ≠ [] → s.in_progress_queue.futures ≠ []) := by
  have hinv := reachable_inv h
  constructor
  · intro kv hkv
    refine ⟨hinv.tailsNe kv hkv, ?_⟩
    rcases hinv.keyActive kv hkv with ⟨x, hx, hxe⟩
    have hle := filter_index_length_le_one kv.1 _ hinv.idxNodup
    have hmem : x ∈ s.in_progress_queue.futures.filter (fun y => y.index == kv.1) :=
      List.mem_filter.mpr ⟨hx, by simp [hxe]⟩
    have hpos : 0 < (s.in_progress_queue.futures.filter (fun y => y.index == kv.1)).length :=
      List.length_pos.mpr (fun he => by rw [he] at hmem; simp at hmem)
    omega
  · intro hne hfe
    rcases List.exists_mem_of_ne_nil _ hne with ⟨kv, hkv⟩
    rcases hinv.keyActive kv hkv with ⟨x, hx, _⟩
    rw [hfe] at hx
    simp at hx

/-- Witness for C5 at the queue holding one two-element series. -/
theorem c5_series_table_invariant_witness :
    (∀ kv ∈ ((FuturesUnorderedSeries.new (α := Nat)).push_series [0, 1]).series_queue,
      kv.2 ≠ [] ∧
      (((FuturesUnorderedSeries.new (α := Nat)).push_series
          [0, 1]).in_progress_queue.futures.filter (fun x => x.index == kv.1)).length = 1)
    ∧ (((FuturesUnorderedSeries.new (α := Nat)).push_series [0, 1]).series_queue ≠ [] →
        ((FuturesUnorderedSeries.new (α := Nat)).push_series
          [0, 1]).in_progress_queue.futures ≠ []) :=
  c5_series_table_invariant _
    (Reachable.push_series FuturesUnorderedSeries.new [0, 1] Reachable.new)

/-- C9: in every reachable state, is_empty holds exactly when len is zero. -/
theorem c9_is_empty_iff_len_zero {α : Type u} (s : FuturesUnorderedSeries α)
    (h : Reachable s) : s.is_empty = true ↔ s.len = 0 := by
  have hinv := reachable_inv h
  rw [len_eq]
  unfold FuturesUnorderedSeries.is_empty FuturesUnordered.is_empty
  constructor
  · intro hb
    rw [Bool.and_eq_true] at hb
    have h1 : s.in_progress_queue.futures = [] := by simpa using hb.1
    have h2 : s.series_queue = [] := by simpa using hb.2
    rw [h1, h2]
    simp [valSum]
  · intro hz
    have h1 : s.in_progress_queue.futures.length = 0 := by omega
    have h2 : valSum s.series_queue = 0 := by omega
    have h3 : s.series_queue = [] := by
      cases hsq : s.series_queue with
      | nil => rfl
      | cons kv rest =>
        have htne := hinv.tailsNe kv (by rw [hsq]; exact List.mem_cons_self _ _)
        have hv : valSum (kv :: rest) = 0 := by rw [← hsq]; exact h2
        rw [valSum_cons] at hv
        have hlen0 : kv.2.length = 0 := by omega
        exact absurd (List.eq_nil_of_length_eq_zero hlen0) htne
    rw [List.length_eq_zero] at h1
    simp [h1, h3]

/-- Witness for C9 at the empty queue. -/
theorem c9_is_empty_iff_len_zero_witness :
    (FuturesUnorderedSeries.new (α := Nat)).is_empty = true ↔
      (FuturesUnorderedSeries.new (α := Nat)).len = 0 :=
  c9_is_empty_iff_len_zero FuturesUnorderedSeries.new Reachable.new

/-- Polling with an empty active set always reports end-of-stream. -/
theorem poll_next_end {α : Type u} {s : FuturesUnorderedSeries α}
    (he : s.in_progress_queue.futures = []) (c : PollChoice) :
    s.poll_next c = (Poll.ready none, termState s) := by
  unfold FuturesUnorderedSeries.poll_next
  rw [ptag_empty c he]

/-- A drained terminated queue stays drained under any sequence of polls, all
of which report end-of-stream. -/
theorem pollSeq_end {α : Type u} :
    ∀ (cs : List PollChoice) (s : FuturesUnorderedSeries α),
      s.in_progress_queue.futures = [] → s.series_queue = [] →
      s.in_progress_queue.terminated = true →
      (∀ p ∈ (pollSeq s cs).2, p = Poll.ready none)
      ∧ (pollSeq s cs).1.in_progress_queue.futures = []
      ∧ (pollSeq s cs).1.series_queue = []
      ∧ (pollSeq s cs).1.in_progress_queue.terminated = true := by
  intro cs
  induction cs with
  | nil =>
    intro s h1 h2 h3
    exact ⟨fun p hp => by simp [pollSeq] at hp, h1, h2, h3⟩
  | cons c cs ih =>
    intro s h1 h2 h3
    have hstep : s.poll_next c = (Poll.ready none, termState s) := poll_next_end h1 c
    have ht1 : (termState s).in_progress_queue.futures = [] := by rw [termState_futures]; exact h1
    have ht2 : (termState s).series_queue = [] := by rw [termState_series_queue]; exact h2
    have ht3 : (termState s).in_progress_queue.terminated = true := rfl
    rcases ih (termState s) ht1 ht2 ht3 with ⟨hall, hf, hq, htm⟩
    have hps : pollSeq s (c :: cs) =
        ((pollSeq (termState s) cs).1, Poll.ready none :: (pollSeq (termState s) cs).2) := by
      show ((pollSeq (s.poll_next c).2 cs).1,
        (s.poll_next c).1 :: (pollSeq (s.poll_next c).2 cs).2) = _
      rw [hstep]
    rw [hps]
    refine ⟨?_, hf, hq, htm⟩
    intro p hp
    rcases List.mem_cons.mp hp with he | hm
    · exact he
    · exact hall p hm

/-- C6: is_terminated holds exactly when the flag of the inner set is raised and the
series table is empty; from any reachable state where it holds, every
subsequent poll_next (no enrolment intervening) reports end-of-stream, and the
queue remains terminated. -/
theorem c6_terminated_absorbing {α : Type u} (s : FuturesUnorderedSeries α)
    (h : Reachable s) (ht : s.is_terminated = true) (cs : List PollChoice) :
    (∀ t : FuturesUnorderedSeries α,
        t.is_terminated = (t.in_progress_queue.is_terminated && t.series_queue.isEmpty))
    ∧ (∀ p ∈ (pollSeq s cs).2, p = Poll.ready none)
    ∧ (pollSeq s cs).1.is_terminated = true := by
  have hinv := reachable_inv h
  have hflag : s.in_progress_queue.terminated = true := by
    unfold FuturesUnorderedSeries.is_terminated FuturesUnordered.is_terminated at ht
    exact (Bool.and_eq_true _ _ |>.mp ht).1
  have hsq : s.series_queue = [] := by
    unfold FuturesUnorderedSeries.is_terminated at ht
    have := (Bool.and_eq_true _ _ |>.mp ht).2
    simpa using this
  have hfe : s.in_progress_queue.futures = [] := hinv.termEmpty hflag
  rcases pollSeq_end cs s hfe hsq hflag with ⟨hall, hf, hq, htm⟩
  refine ⟨fun t => rfl, hall, ?_⟩
  unfold FuturesUnorderedSeries.is_terminated FuturesUnordered.is_terminated
  rw [Bool.and_eq_true]
  exact ⟨htm, by simp [hq]⟩

/-- Witness for C6 at the once-polled empty queue. -/
theorem c6_terminated_absorbing_witness :
    (∀ t : FuturesUnorderedSeries Nat,
        t.is_terminated = (t.in_progress_queue.is_terminated && t.series_queue.isEmpty))
    ∧ (∀ p ∈ (pollSeq ((FuturesUnorderedSeries.new (α := Nat)).poll_next
          PollChoice.pending).2 [PollChoice.pending]).2, p = Poll.ready none)
    ∧ (pollSeq ((FuturesUnorderedSeries.new (α := Nat)).poll_next
          PollChoice.pending).2 [PollChoice.pending]).1.is_terminated = true :=
  c6_terminated_absorbing _
    (Reachable.poll FuturesUnorderedSeries.new PollChoice.pending Reachable.new)
    rfl [PollChoice.pending]

/-- run on the empty trace. -/
theorem run_nil {α : Type u} (s : FuturesUnorderedSeries α) : run s [] = (s, []) := rfl

/-- run unfolds one operation at a time. -/
theorem run_cons {α : Type u} (s : FuturesUnorderedSeries α) (op : Op α) (ops : List (Op α)) :
    run s (op :: ops) =
      ((run (stepOp op s).1 ops).1, (stepOp op s).2 ++ (run (stepOp op s).1 ops).2) := rfl

/-- stepOp on a push. -/
theorem stepOp_push {α : Type u} (s : FuturesUnorderedSeries α) (f : α) :
    stepOp (Op.push f) s = (s.push f, []) := rfl

/-- stepOp on a series push. -/
theorem stepOp_push_series {α : Type u} (s : FuturesUnorderedSeries α) (fs : List α) :
    stepOp (Op.push_series fs) s = (s.push_series fs, []) := rfl

/-- push adds exactly one pending computation. -/
theorem len_push {α : Type u} (s : FuturesUnorderedSeries α) (f : α) :
    (s.push f).len = s.len + 1 := by
  rw [len_eq, len_eq, push_futures, push_series_queue, List.length_cons]
  omega

/-- push_series adds exactly as many pending computations as its length. -/
theorem len_push_series {α : Type u} {s : FuturesUnorderedSeries α} (h : QueueInv s)
    (fs : List α) : (s.push_series fs).len = s.len + fs.length := by
  cases fs with
  | nil => rw [push_series_nil]; rfl
  | cons a l =>
    by_cases hl : l = []
    · subst hl
      rw [push_series_singleton, len_push]
      rfl
    · rw [push_series_cons, if_neg (by simp [hl])]
      have hfresh : ∀ kv ∈ s.series_queue, kv.1 ≠ s.next_index :=
        fun kv hkv => ne_of_lt (h.keysLt kv hkv)
      have hins : insertA s.next_index l.reverse s.series_queue
          = (s.next_index, l.reverse) :: s.series_queue := by
        unfold insertA
        rw [removeA_eq_self hfresh]
      rw [hins, len_eq, len_eq]
      show (({ data := a, index := s.next_index } : SeriesWrapper α) ::
          s.in_progress_queue.futures).length
          + valSum ((s.next_index, l.reverse) :: s.series_queue)
        = s.in_progress_queue.futures.length + valSum s.series_queue + (a :: l).length
      rw [List.length_cons, valSum_cons, List.length_cons]
      show s.in_progress_queue.futures.length + 1 + (l.reverse.length + valSum s.series_queue)
        = s.in_progress_queue.futures.length + valSum s.series_queue + (l.length + 1)
      rw [List.length_reverse]
      omega

/-- termState does not change the length. -/
theorem len_termState {α : Type u} (s : FuturesUnorderedSeries α) :
    (termState s).len = s.len := rfl

/-- Completing one active future shrinks the length by exactly one. -/
theorem len_promote {α : Type u} {s : FuturesUnorderedSeries α} {i : Nat}
    {w : SeriesWrapper α} (h : QueueInv s)
    (hg : s.in_progress_queue.futures[i]? = some w) :
    (promoteState s i w).len + 1 = s.len := by
  have hi : i < s.in_progress_queue.futures.length :=
    (List.getElem?_eq_some.mp hg).1
  have herase : (s.in_progress_queue.futures.eraseIdx i).length
      = s.in_progress_queue.futures.length - 1 := by
    rw [List.length_eraseIdx]
    simp [hi]
  rcases hl : lookupA w.index s.series_queue with _ | tail
  · rw [promoteState_none hl, len_eq, len_eq]
    show (s.in_progress_queue.futures.eraseIdx i).length + valSum s.series_queue + 1
      = s.in_progress_queue.futures.length + valSum s.series_queue
    omega
  · have htne : tail ≠ [] := h.tailsNe (w.index, tail) (lookupA_mem hl)
    rcases hp : popLast tail with _ | pr
    · exact absurd hp (popLast_ne_none htne)
    · rcases pr with ⟨nxt, rem⟩
      have htl : tail.length = rem.length + 1 := by
        rw [popLast_eq_some hp]
        simp
      rw [promoteState_pop hl hp, len_eq, len_eq]
      by_cases hrem : rem.isEmpty
      · rw [if_pos hrem]
        have hrm := valSum_removeA (t := tail) h.keysNodup hl
        have hremnil : rem = [] := by simpa using hrem
        show (({ data := nxt, index := w.index } : SeriesWrapper α) ::
            s.in_progress_queue.futures.eraseIdx i).length
            + valSum (removeA w.index s.series_queue) + 1
          = s.in_progress_queue.futures.length + valSum s.series_queue
        rw [List.length_cons]
        rw [hremnil] at htl
        simp only [List.length_nil] at htl
        omega
      · rw [if_neg hrem]
        have hst := valSum_setA (t := tail) rem h.keysNodup hl
        show (({ data := nxt, index := w.index } : SeriesWrapper α) ::
            s.in_progress_queue.futures.eraseIdx i).length
            + valSum (setA w.index rem s.series_queue) + 1
          = s.in_progress_queue.futures.length + valSum s.series_queue
        rw [List.length_cons]
        omega

/-- One tagged poll trades one unit of length for one yield. -/
theorem len_ptag {α : Type u} {s : FuturesUnorderedSeries α} (h : QueueInv s)
    (c : PollChoice) :
    (s.poll_next_tagged c).2.len +
      (match (s.poll_next_tagged c).1 with
       | Poll.ready (some _) => 1
       | Poll.ready none => 0
       | Poll.pending => 0) = s.len := by
  rcases ptag_cases c s with ⟨he, heq⟩ | heq | ⟨i, w, hg, heq⟩
  · rw [heq]
    show (termState s).len + 0 = s.len
    rw [len_termState]
    omega
  · rw [heq]
    show s.len + 0 = s.len
    omega
  · rw [heq]
    show (promoteState s i w).len + 1 = s.len
    exact len_promote h hg

/-- Trace-level accounting: length plus yields so far equals the initial
length plus everything enrolled since. -/
theorem run_len {α : Type u} :
    ∀ (ops : List (Op α)) (s : FuturesUnorderedSeries α), QueueInv s →
      (run s ops).1.len + (run s ops).2.length = s.len + enrolledCount ops := by
  intro ops
  induction ops with
  | nil => intro s _; simp [run_nil, enrolledCount]
  | cons op ops ih =>
    intro s hinv
    rw [run_cons]
    cases op with
    | push f =>
      rw [stepOp_push]
      have := ih (s.push f) (inv_push hinv f)
      show (run (s.push f) ops).1.len + ([] ++ (run (s.push f) ops).2).length
        = s.len + enrolledCount (Op.push f :: ops)
      rw [List.nil_append]
      show _ = s.len + (1 + enrolledCount ops)
      rw [this, len_push]
      omega
    | push_series fs =>
      rw [stepOp_push_series]
      have := ih (s.push_series fs) (inv_push_series hinv fs)
      show (run (s.push_series fs) ops).1.len + ([] ++ (run (s.push_series fs) ops).2).length
        = s.len + enrolledCount (Op.push_series fs :: ops)
      rw [List.nil_append]
      show _ = s.len + (fs.length + enrolledCount ops)
      rw [this, len_push_series hinv]
      omega
    | poll c =>
      have hfst := stepOp_poll_fst c s
      have hsnd := stepOp_poll_snd c s
      have hlen := len_ptag hinv c
      have hinv2 : QueueInv (stepOp (Op.poll c) s).1 := by
        rw [hfst]; exact inv_ptag hinv c
      have hih := ih (stepOp (Op.poll c) s).1 hinv2
      rw [hfst] at hih
      have hmatch : (match (s.poll_next_tagged c).1 with
          | Poll.ready (some w) => [w]
          | Poll.ready none => []
          | Poll.pending => ([] : List (SeriesWrapper α))).length
        = (match (s.poll_next_tagged c).1 with
           | Poll.ready (some _) => 1
           | Poll.ready none => 0
           | Poll.pending => 0) := by
        rcases (s.poll_next_tagged c).1 with v | _
        · rcases v with _ | w <;> rfl
        · rfl
      show (run (stepOp (Op.poll c) s).1 ops).1.len
          + ((stepOp (Op.poll c) s).2 ++ (run (stepOp (Op.poll c) s).1 ops).2).length
        = s.len + enrolledCount (Op.poll c :: ops)
      rw [List.length_append, hfst, hsnd, hmatch]
      show (run (s.poll_next_tagged c).2 ops).1.len
          + ((match (s.poll_next_tagged c).1 with
              | Poll.ready (some _) => 1
              | Poll.ready none => 0
              | Poll.pending => 0)
             + (run (s.poll_next_tagged c).2 ops).2.length)
        = s.len + enrolledCount ops
      omega

/-- C3: in every state reached from the empty queue by a trace of push,
push_series and poll_next operations under any schedule, len equals the
active-set size plus the sum of stored tail lengths, and equals the number of
enrolled inner computations not yet yielded. -/
theorem c3_len_accounting {α : Type u} (ops : List (Op α)) :
    (run FuturesUnorderedSeries.new ops).1.len + (run FuturesUnorderedSeries.new ops).2.length
        = enrolledCount ops
    ∧ (run FuturesUnorderedSeries.new ops).1.len =
        (run FuturesUnorderedSeries.new ops).1.in_progress_queue.futures.length
          + valSum (run FuturesUnorderedSeries.new ops).1.series_queue := by
  constructor
  · have h := run_len ops FuturesUnorderedSeries.new inv_new
    rw [h]
    show (0 : Nat) + enrolledCount ops = enrolledCount ops
    omega
  · exact len_eq _

/-- Promotion never touches the counter. -/
theorem promoteState_next_index {α : Type u} (s : FuturesUnorderedSeries α) (i : Nat)
    (w : SeriesWrapper α) : (promoteState s i w).next_index = s.next_index := by
  unfold promoteState
  rcases hl : lookupA w.index s.series_queue with _ | tail
  · simp only [hl]
  · rcases hp : popLast tail with _ | pr
    · simp only [hl, hp]
    · rcases pr with ⟨a, b⟩
      simp only [hl, hp]

/-- A tagged poll never touches the counter. -/
theorem next_index_ptag {α : Type u} (c : PollChoice) (s : FuturesUnorderedSeries α) :
    (s.poll_next_tagged c).2.next_index = s.next_index := by
  rcases ptag_cases c s with ⟨_, heq⟩ | heq | ⟨i, w, _, heq⟩
  · rw [heq]; exact termState_next_index s
  · rw [heq]
  · rw [heq]; exact promoteState_next_index s i w

/-- poll_next never touches the counter. -/
theorem next_index_poll {α : Type u} (c : PollChoice) (s : FuturesUnorderedSeries α) :
    (s.poll_next c).2.next_index = s.next_index := by
  rw [poll_next_snd]
  exact next_index_ptag c s

/-- Counter after a non-empty series push. -/
theorem push_series_next_index_cons {α : Type u} (s : FuturesUnorderedSeries α) (a : α)
    (l : List α) : (s.push_series (a :: l)).next_index = s.next_index + 1 := by
  rw [push_series_cons]

/-- The indices a trace assigns from a state are consecutive from its counter,
and the counter advances by exactly the number of allocating enrolments. -/
theorem assignedFrom_spec {α : Type u} :
    ∀ (ops : List (Op α)) (s : FuturesUnorderedSeries α),
      assignedFrom s ops
          = (List.range (allocCount ops)).map (fun k : Nat => s.next_index + (k : Int))
      ∧ (run s ops).1.next_index = s.next_index + (allocCount ops : Int) := by
  intro ops
  induction ops with
  | nil =>
    intro s
    constructor
    · rfl
    · show s.next_index = s.next_index + ((0 : Nat) : Int)
      simp
  | cons op ops ih =>
    intro s
    cases op with
    | push f =>
      have h := ih (s.push f)
      constructor
      · show s.next_index :: assignedFrom (s.push f) ops
          = (List.range (1 + allocCount ops)).map (fun k : Nat => s.next_index + (k : Int))
        rw [Nat.add_comm 1 (allocCount ops), List.range_succ_eq_map, List.map_cons,
          List.map_map]
        congr 1
        · simp
        · rw [h.1, push_next_index]
          apply List.map_congr_left
          intro k _
          show s.next_index + 1 + (k : Int) = s.next_index + ((Nat.succ k : Nat) : Int)
          push_cast
          ring
      · show (run (s.push f) ops).1.next_index = s.next_index + ((1 + allocCount ops : Nat) : Int)
        rw [h.2, push_next_index]
        push_cast
        ring
    | push_series fs =>
      cases fs with
      | nil =>
        have h := ih s
        constructor
        · show assignedFrom s ops
            = (List.range (0 + allocCount ops)).map (fun k : Nat => s.next_index + (k : Int))
          rw [Nat.zero_add]
          exact h.1
        · show (run s ops).1.next_index = s.next_index + ((0 + allocCount ops : Nat) : Int)
          rw [Nat.zero_add]
          exact h.2
      | cons a l =>
        have h := ih (s.push_series (a :: l))
        constructor
        · show s.next_index :: assignedFrom (s.push_series (a :: l)) ops
            = (List.range (1 + allocCount ops)).map (fun k : Nat => s.next_index + (k : Int))
          rw [Nat.add_comm 1 (allocCount ops), List.range_succ_eq_map, List.map_cons,
            List.map_map]
          congr 1
          · simp
          · rw [h.1, push_series_next_index_cons]
            apply List.map_congr_left
            intro k _
            show s.next_index + 1 + (k : Int) = s.next_index + ((Nat.succ k : Nat) : Int)
            push_cast
            ring
        · show (run (s.push_series (a :: l)) ops).1.next_index
            = s.next_index + ((1 + allocCount ops : Nat) : Int)
          rw [h.2, push_series_next_index_cons]
          push_cast
          ring
    | poll c =>
      have h2 := ih (s.poll_next_tagged c).2
      constructor
      · show assignedFrom (s.poll_next c).2 ops
          = (List.range (allocCount ops)).map (fun k : Nat => s.next_index + (k : Int))
        rw [poll_next_snd, h2.1, next_index_ptag]
      · show (run (stepOp (Op.poll c) s).1 ops).1.next_index
          = s.next_index + ((allocCount ops : Nat) : Int)
        rw [stepOp_poll_fst, h2.2, next_index_ptag]

/-- C8: across any trace from the empty queue, the slot indices assigned by
enrolments are exactly 0, 1, 2, ... in order: strictly increasing, pairwise
distinct, and the counter advances by one per allocating enrolment. -/
theorem c8_indices_strictly_increasing {α : Type u} (ops : List (Op α)) :
    assignedFrom FuturesUnorderedSeries.new ops
        = (List.range (allocCount ops)).map (fun k : Nat => (k : Int))
    ∧ (assignedFrom FuturesUnorderedSeries.new ops).Pairwise (fun a b => a < b)
    ∧ (assignedFrom FuturesUnorderedSeries.new ops).Nodup
    ∧ (run FuturesUnorderedSeries.new ops).1.next_index = (allocCount ops : Int) := by
  have h := assignedFrom_spec ops FuturesUnorderedSeries.new
  have he : assignedFrom FuturesUnorderedSeries.new ops
      = (List.range (allocCount ops)).map (fun k : Nat => (k : Int)) := by
    rw [h.1]
    apply List.map_congr_left
    intro k _
    show (0 : Int) + (k : Int) = (k : Int)
    omega
  refine ⟨he, ?_, ?_, ?_⟩
  · rw [he, List.pairwise_map]
    apply List.Pairwise.imp ?_ (List.pairwise_lt_range (allocCount ops))
    intro a b hab
    exact_mod_cast hab
  · rw [he]
    apply List.Nodup.map ?_ (List.nodup_range (allocCount ops))
    intro a b hab
    have hab2 : (a : Int) = (b : Int) := hab
    exact_mod_cast hab2
  · rw [h.2]
    show (0 : Int) + (allocCount ops : Int) = (allocCount ops : Int)
    omega

/-- Lookup of a freshly inserted key finds the new value. -/
theorem lookupA_insertA_self {α : Type u} (k : Int) (v : List α) (m : List (Int × List α)) :
    lookupA k (insertA k v m) = some v := by
  unfold insertA
  rw [lookupA_cons, if_pos rfl]

/-- Insertion under another key does not change a lookup. -/
theorem lookupA_insertA_ne {α : Type u} {n k : Int} (h : n ≠ k) (v : List α)
    (m : List (Int × List α)) : lookupA n (insertA k v m) = lookupA n m := by
  unfold insertA
  rw [lookupA_cons, if_neg (fun e => h e.symm), lookupA_removeA_ne h]

/-- Filtering by index skips a head with another index. -/
theorem filter_index_cons_ne {α : Type u} (x : SeriesWrapper α) (l : List (SeriesWrapper α))
    (n : Int) (h : x.index ≠ n) :
    (x :: l).filter (fun w => w.index == n) = l.filter (fun w => w.index == n) := by
  rw [List.filter_cons]
  have hb : (x.index == n) = false := beq_eq_false_iff_ne.mpr h
  rw [hb]
  simp

/-- Filtering by index keeps a head with that index. -/
theorem filter_index_cons_eq {α : Type u} (x : SeriesWrapper α) (l : List (SeriesWrapper α))
    (n : Int) (h : x.index = n) :
    (x :: l).filter (fun w => w.index == n) = x :: l.filter (fun w => w.index == n) := by
  rw [List.filter_cons]
  have hb : (x.index == n) = true := by simp [h]
  rw [hb]
  simp

/-- The index filter is empty when the index occurs nowhere. -/
theorem filter_index_eq_nil {α : Type u} {l : List (SeriesWrapper α)} {n : Int}
    (h : ∀ w ∈ l, w.index ≠ n) : l.filter (fun w => w.index == n) = [] := by
  rw [List.eq_nil_iff_forall_not_mem]
  intro x hx
  rw [List.mem_filter] at hx
  exact h x hx.1 (by simpa using hx.2)

/-- Slots below the counter are untouched by push. -/
theorem slot_push {α : Type u} {s : FuturesUnorderedSeries α} {n : Int}
    (hn : n < s.next_index) (f : α) : slotRemaining n (s.push f) = slotRemaining n s := by
  unfold slotRemaining slotActive slotTail
  rw [push_futures, push_series_queue,
    filter_index_cons_ne _ _ n (by show s.next_index ≠ n; omega)]

/-- Slots below the counter are untouched by push_series. -/
theorem slot_push_series {α : Type u} {s : FuturesUnorderedSeries α} {n : Int}
    (hn : n < s.next_index) (fs : List α) :
    slotRemaining n (s.push_series fs) = slotRemaining n s := by
  cases fs with
  | nil => rw [push_series_nil]
  | cons a l =>
    unfold slotRemaining slotActive slotTail
    rw [push_series_cons]
    show ((({ data := a, index := s.next_index } : SeriesWrapper α) ::
        s.in_progress_queue.futures).filter (fun w => w.index == n)).map SeriesWrapper.data
        ++ ((lookupA n (if l.reverse.isEmpty then s.series_queue
              else insertA s.next_index l.reverse s.series_queue)).getD []).reverse
      = (s.in_progress_queue.futures.filter (fun w => w.index == n)).map SeriesWrapper.data
        ++ ((lookupA n s.series_queue).getD []).reverse
    rw [filter_index_cons_ne _ _ n (by show s.next_index ≠ n; omega)]
    by_cases hl : l.reverse.isEmpty
    · rw [if_pos hl]
    · rw [if_neg hl, lookupA_insertA_ne (by omega)]

/-- Slots are untouched by raising the terminated flag. -/
theorem slot_term {α : Type u} (s : FuturesUnorderedSeries α) (n : Int) :
    slotRemaining n (termState s) = slotRemaining n s := rfl

/-- Completing a future of another slot does not change slot n. -/
theorem slot_promote_other {α : Type u} {s : FuturesUnorderedSeries α} {i : Nat}
    {w : SeriesWrapper α} {n : Int} (hg : s.in_progress_queue.futures[i]? = some w)
    (hne : w.index ≠ n) : slotRemaining n (promoteState s i w) = slotRemaining n s := by
  have hfe := filter_eraseIdx_of_neg (fun y => y.index == n) s.in_progress_queue.futures i w hg
    (beq_eq_false_iff_ne.mpr hne)
  rcases hl : lookupA w.index s.series_queue with _ | tail
  · rw [promoteState_none hl]
    unfold slotRemaining slotActive slotTail
    rw [hfe]
  · rcases hp : popLast tail with _ | pr
    · unfold promoteState
      simp only [hl, hp]
      unfold slotRemaining slotActive slotTail
      rw [hfe]
      show _ ++ ((lookupA n (removeA w.index s.series_queue)).getD []).reverse = _
      rw [lookupA_removeA_ne (fun e => hne e.symm)]
    · rcases pr with ⟨nxt, rem⟩
      rw [promoteState_pop hl hp]
      unfold slotRemaining slotActive slotTail
      show ((({ data := nxt, index := w.index } : SeriesWrapper α) ::
          s.in_progress_queue.futures.eraseIdx i).filter
            (fun y => y.index == n)).map SeriesWrapper.data
          ++ ((lookupA n (if rem.isEmpty then removeA w.index s.series_queue
                else setA w.index rem s.series_queue)).getD []).reverse
        = _
      rw [filter_index_cons_ne { data := nxt, index := w.index } _ n hne, hfe]
      by_cases hrem : rem.isEmpty
      · rw [if_pos hrem, lookupA_removeA_ne (fun e => hne e.symm)]
      · rw [if_neg hrem, lookupA_setA_ne (fun e => hne e.symm)]

/-- Completing the future of slot n itself: the yielded value is exactly the
head of what remained of the slot. -/
theorem slot_promote_self {α : Type u} {s : FuturesUnorderedSeries α} {i : Nat}
    {w : SeriesWrapper α} {n : Int} (h : QueueInv s)
    (hg : s.in_progress_queue.futures[i]? = some w) (hw : w.index = n) :
    slotRemaining n s = w.data :: slotRemaining n (promoteState s i w) := by
  have hb : ((fun y : SeriesWrapper α => y.index == n) w) = true := by simp [hw]
  have hlen := filter_index_length_le_one n _ h.idxNodup
  have hfs := filter_single_erase (fun y => y.index == n) s.in_progress_queue.futures i w hg
    hb hlen
  rcases hl : lookupA w.index s.series_queue with _ | tail
  · rw [promoteState_none hl]
    unfold slotRemaining slotActive slotTail
    rw [hfs.1, hfs.2, ← hw, hl]
    simp
  · have htne : tail ≠ [] := h.tailsNe (w.index, tail) (lookupA_mem hl)
    rcases hp : popLast tail with _ | pr
    · exact absurd hp (popLast_ne_none htne)
    · rcases pr with ⟨nxt, rem⟩
      have htr : tail.reverse = nxt :: rem.reverse := by
        rw [popLast_eq_some hp]
        simp
      rw [promoteState_pop hl hp]
      unfold slotRemaining slotActive slotTail
      show (s.in_progress_queue.futures.filter (fun y => y.index == n)).map SeriesWrapper.data
          ++ ((lookupA n s.series_queue).getD []).reverse
        = w.data :: ((({ data := nxt, index := w.index } : SeriesWrapper α) ::
            s.in_progress_queue.futures.eraseIdx i).filter
              (fun y => y.index == n)).map SeriesWrapper.data
          ++ ((lookupA n (if rem.isEmpty then removeA w.index s.series_queue
                else setA w.index rem s.series_queue)).getD []).reverse
      rw [hfs.1, filter_index_cons_eq { data := nxt, index := w.index } _ n hw, hfs.2,
        ← hw, hl]
      by_cases hrem : rem.isEmpty
      · have hremnil : rem = [] := by simpa using hrem
        rw [if_pos hrem, lookupA_removeA_self]
        subst hremnil
        simp [htr]
      · rw [if_neg hrem, lookupA_setA_self rem hl]
        simp [htr]

/-- Right after enrolment, the remaining computations of the fresh slot are
exactly the enrolled series, in run order. -/
theorem slot_init {α : Type u} {s : FuturesUnorderedSeries α} (h : QueueInv s) (a : α)
    (l : List α) :
    slotRemaining s.next_index (s.push_series (a :: l)) = a :: l := by
  unfold slotRemaining slotActive slotTail
  rw [push_series_cons]
  show ((({ data := a, index := s.next_index } : SeriesWrapper α) ::
      s.in_progress_queue.futures).filter (fun w => w.index == s.next_index)).map
        SeriesWrapper.data
      ++ ((lookupA s.next_index (if l.reverse.isEmpty then s.series_queue
            else insertA s.next_index l.reverse s.series_queue)).getD []).reverse
    = a :: l
  rw [filter_index_cons_eq { data := a, index := s.next_index } _ s.next_index rfl,
    filter_index_eq_nil (fun w hw => ne_of_lt (h.idxLt w hw))]
  by_cases hl : l.reverse.isEmpty
  · have hlnil : l = [] := by simpa using hl
    rw [if_pos hl, lookupA_none (fun kv hkv => ne_of_lt (h.keysLt kv hkv))]
    subst hlnil
    simp
  · rw [if_neg hl, lookupA_insertA_self]
    simp

/-- Along any continuation trace, the values yielded for slot n followed by the
remaining computations of that slot always reconstruct what remained of the
slot at the start. -/
theorem slot_run {α : Type u} :
    ∀ (ops : List (Op α)) (s : FuturesUnorderedSeries α) (n : Int), QueueInv s →
      n < s.next_index →
      ((run s ops).2.filter (fun w => w.index == n)).map SeriesWrapper.data
          ++ slotRemaining n (run s ops).1
        = slotRemaining n s := by
  intro ops
  induction ops with
  | nil =>
    intro s n _ _
    simp [run_nil]
  | cons op ops ih =>
    intro s n hinv hn
    rw [run_cons]
    show (((stepOp op s).2 ++ (run (stepOp op s).1 ops).2).filter
        (fun w => w.index == n)).map SeriesWrapper.data
        ++ slotRemaining n (run (stepOp op s).1 ops).1
      = slotRemaining n s
    rw [List.filter_append, List.map_append, List.append_assoc]
    cases op with
    | push f =>
      show (([] : List (SeriesWrapper α)).filter (fun w => w.index == n)).map
          SeriesWrapper.data
          ++ (((run (s.push f) ops).2.filter (fun w => w.index == n)).map SeriesWrapper.data
            ++ slotRemaining n (run (s.push f) ops).1)
        = slotRemaining n s
      rw [ih (s.push f) n (inv_push hinv f) (by rw [push_next_index]; omega),
        slot_push hn]
      simp
    | push_series fs =>
      show (([] : List (SeriesWrapper α)).filter (fun w => w.index == n)).map
          SeriesWrapper.data
          ++ (((run (s.push_series fs) ops).2.filter (fun w => w.index == n)).map
              SeriesWrapper.data
            ++ slotRemaining n (run (s.push_series fs) ops).1)
        = slotRemaining n s
      have hn2 : n < (s.push_series fs).next_index := by
        cases fs with
        | nil => rw [push_series_nil]; exact hn
        | cons a l => rw [push_series_next_index_cons]; omega
      rw [ih (s.push_series fs) n (inv_push_series hinv fs) hn2, slot_push_series hn]
      simp
    | poll c =>
      rcases ptag_cases c s with ⟨he, heq⟩ | heq | ⟨i, w, hg, heq⟩
      · have h1 : (stepOp (Op.poll c) s).1 = termState s := by rw [stepOp_poll_fst, heq]
        have h2 : (stepOp (Op.poll c) s).2 = [] := by rw [stepOp_poll_snd, heq]
        rw [h1, h2,
          ih (termState s) n (inv_term hinv he) (by rw [termState_next_index]; omega),
          slot_term]
        simp
      · have h1 : (stepOp (Op.poll c) s).1 = s := by rw [stepOp_poll_fst, heq]
        have h2 : (stepOp (Op.poll c) s).2 = [] := by rw [stepOp_poll_snd, heq]
        rw [h1, h2, ih s n hinv hn]
        simp
      · have h1 : (stepOp (Op.poll c) s).1 = promoteState s i w := by
          rw [stepOp_poll_fst, heq]
        have h2 : (stepOp (Op.poll c) s).2 = [w] := by rw [stepOp_poll_snd, heq]
        have hnn : n < (promoteState s i w).next_index := by
          rw [promoteState_next_index]; omega
        rw [h1, h2, ih (promoteState s i w) n (inv_promote hinv hg) hnn]
        by_cases hwn : w.index = n
        · rw [filter_index_cons_eq w [] n hwn, slot_promote_self hinv hg hwn]
          simp
        · rw [filter_index_cons_ne w [] n hwn, slot_promote_other hg hwn]
          simp

/-- C2: for a series enrolled in any reachable state, the values the consumer
observes from that slot, followed by the still-pending computations of the
slot, always equal the enrolled series in order; once the slot is drained, the
observed subsequence is exactly the series. This holds for every continuation
trace, hence for every schedule of completions. -/
theorem c2_series_subsequence {α : Type u} (s : FuturesUnorderedSeries α) (hs : Reachable s)
    (a : α) (l : List α) (ops : List (Op α)) :
    (((run (s.push_series (a :: l)) ops).2.filter
        (fun w => w.index == s.next_index)).map SeriesWrapper.data)
        ++ slotRemaining s.next_index (run (s.push_series (a :: l)) ops).1
      = a :: l
    ∧ (slotRemaining s.next_index (run (s.push_series (a :: l)) ops).1 = [] →
        ((run (s.push_series (a :: l)) ops).2.filter
          (fun w => w.index == s.next_index)).map SeriesWrapper.data = a :: l) := by
  have hinv := reachable_inv hs
  have h1 := slot_run ops (s.push_series (a :: l)) s.next_index (inv_push_series hinv _)
    (by rw [push_series_next_index_cons]; omega)
  rw [slot_init hinv a l] at h1
  refine ⟨h1, ?_⟩
  intro hnil
  rw [hnil] at h1
  simpa using h1

/-- Witness for C2: the series 5, 7 enrolled into the empty queue and driven to
completion yields exactly 5 then 7. -/
theorem c2_series_subsequence_witness :
    (((run ((FuturesUnorderedSeries.new (α := Nat)).push_series [5, 7])
        [Op.poll (PollChoice.complete 0), Op.poll (PollChoice.complete 0)]).2.filter
          (fun w => w.index == (FuturesUnorderedSeries.new (α := Nat)).next_index)).map
            SeriesWrapper.data)
        ++ slotRemaining (FuturesUnorderedSeries.new (α := Nat)).next_index
            (run ((FuturesUnorderedSeries.new (α := Nat)).push_series [5, 7])
              [Op.poll (PollChoice.complete 0), Op.poll (PollChoice.complete 0)]).1
      = [5, 7]
    ∧ (slotRemaining (FuturesUnorderedSeries.new (α := Nat)).next_index
          (run ((FuturesUnorderedSeries.new (α := Nat)).push_series [5, 7])
            [Op.poll (PollChoice.complete 0), Op.poll (PollChoice.complete 0)]).1 = [] →
        ((run ((FuturesUnorderedSeries.new (α := Nat)).push_series [5, 7])
          [Op.poll (PollChoice.complete 0), Op.poll (PollChoice.complete 0)]).2.filter
            (fun w => w.index == (FuturesUnorderedSeries.new (α := Nat)).next_index)).map
              SeriesWrapper.data = [5, 7]) :=
  c2_series_subsequence FuturesUnorderedSeries.new Reachable.new 5 [7]
    [Op.poll (PollChoice.complete 0), Op.poll (PollChoice.complete 0)]
